import Mathlib

/-!
# netsort: a shallow embedding of `src/src/netsort.go`

The Go program sorts fixed-size records over a static cluster.  Every node
reads its own input shard, routes each record to the node that owns the top
bits of the record's first key byte, receives the records routed to it over
TCP, and sorts what it ends up with.

The embedding keeps the sequential code of every function (`genEnd`, the
per-connection reader inside `listen`, the sender inside `dial`,
`sortWrite`, and the three phases of `main`) as a Lean function with the
same control flow.  What the program takes from its environment is passed
in explicitly:

* a file is the list of its bytes, and `Read` with a 100-byte buffer on it
  returns the next `min 100 remaining` bytes, then end-of-file;
* a connection, seen from the reader, is the list of results of its
  successive `Read` calls;
* a connection, seen from the writer, is the concatenation of what was
  written to it;
* the channel, seen from the assembly loop, is the list of frames in the
  order in which they arrive.

Goroutine scheduling is not modelled as such.  `main` does not wait for the
goroutines it starts, so a run may end while its senders are still running:
the cluster-level statements range over every progress of every sender
(`Sent`) and over every arrival order that keeps the order of each
connection.
-/

namespace Netsort

/-! ## Data model -/

/-- A Go `byte`. -/
abbrev Byte := Fin 256

/-- A record as the program holds it: a `[]byte`. -/
abbrev Record := List Byte

/-- A frame as it travels on the channel: a `[]byte`. -/
abbrev Frame := List Byte

/-- The constant `recordLength` of the source (the length of a frame). -/
def recordLength : Nat := 101

/-- The conversion `byte(val)` of a Go `int`. -/
def toByte (val : Int) : Byte := Fin.ofNat (val % 256).toNat

/-- The function `genEnd`: a slice of `num` bytes, each then set to
`byte(val)`. -/
def genEnd (num : Nat) (val : Int) : List Byte :=
  (List.replicate num (0 : Byte)).map (fun _ => toByte val)

/-! ## Partitioner -/

/-- Helper of `log2Floor`: halve until below two. -/
def log2Loop : Nat → Nat → Nat
  | 0, _ => 0
  | fuel + 1, n => if 2 ≤ n then log2Loop fuel (n / 2) + 1 else 0

/-- The expression `int(math.Log2(float64(numServers)))` for
`numServers ≥ 1`: the floor of the binary logarithm (exact on powers of
two, where Go special-cases the mantissa 0.5).  The source never evaluates
it for `numServers = 0`, since it sits inside the loop over the servers. -/
def log2Floor (n : Nat) : Int := (log2Loop n n : Nat)

/-- The expression
`int(buf[0] >> (8 - int(math.Log2(float64(numServers)))))` of `main`.
`none` is a run-time panic: `buf[0]` on an empty slice, or a negative shift
count.  A shift of a `uint8` by eight or more gives zero, as in Go. -/
def ownerID (buf : Record) (numServers : Nat) : Option Int :=
  match buf with
  | [] => none
  | b :: _ =>
    let shift : Int := 8 - log2Floor numServers
    if shift < 0 then none else some ((b.val >>> shift.toNat : Nat) : Int)

/-- The partition map `distribution`, a Go `map[int][][]byte`; a key that
was never written reads as the empty slice. -/
abbrev Distribution := Int → List Record

/-- The statement `distribution[ID] = append(distribution[ID], buf)`. -/
def Distribution.push (d : Distribution) (ID : Int) (buf : Record) : Distribution :=
  fun key => if key = ID then d ID ++ [buf] else d key

/-- The inner loop of the partitioning phase: for every server of the
topology, compute the owner of `buf` and append `buf` to the owner's bucket
when the owner is that server's id. -/
def classify (numServers : Nat) (buf : Record) : List Int → Distribution → Option Distribution
  | [], d => some d
  | serv :: rest, d =>
    match ownerID buf numServers with
    | none => none
    | some ID =>
      if ID = serv then classify numServers buf rest (d.push ID buf)
      else classify numServers buf rest d

/-- The outer loop of the partitioning phase, over the records read from the
input file. -/
def distributeLoop (servers : List Int) : List Record → Distribution → Option Distribution
  | [], d => some d
  | buf :: rest, d =>
    match classify servers.length buf servers d with
    | none => none
    | some d1 => distributeLoop servers rest d1

/-- The partitioning phase of `main`, from the empty map. -/
def distribute (servers : List Int) (records : List Record) : Option Distribution :=
  distributeLoop servers records (fun _ => [])

/-! ## Reading the input file -/

/-- The read loop of `main` (both paths have the same one): `Read` into a
fresh 100-byte buffer until end-of-file, keeping `buf[:n]` each time.  The
first argument bounds the number of iterations. -/
def readLoop : Nat → List Byte → List Record
  | 0, _ => []
  | fuel + 1, file =>
    match file with
    | [] => []
    | b :: rest => (b :: rest).take 100 :: readLoop fuel ((b :: rest).drop 100)

/-- The records the read loop takes from a file.  Every iteration consumes
at least one byte, so the length of the file bounds the iterations. -/
def readRecords (file : List Byte) : List Record := readLoop file.length file

/-! ## Exchange listener -/

/-- The result of one `conn.Read(buffer)` with a 101-byte buffer. -/
inductive ReadEvent where
  | data (bs : List Byte)
  | eof
  | fail
  deriving DecidableEq, Repr

/-- How the per-connection reader ends. -/
inductive ReaderExit where
  | returned
  | panicked
  | waiting
  deriving DecidableEq, Repr

/-- The goroutine started by `listen` for an accepted connection.  The
second argument is the variable `record`, the bytes buffered so far; the
result is the list of frames pushed on the channel, in order, and how the
goroutine ends (`waiting`: the list of read results is exhausted and the
next `Read` has not returned). -/
def connReader : List ReadEvent → List Byte → List Frame × ReaderExit
  | [], _ => ([], ReaderExit.waiting)
  | ReadEvent.fail :: _, _ => ([], ReaderExit.panicked)
  | ReadEvent.eof :: _, _ => ([], ReaderExit.returned)
  | ReadEvent.data bs :: rest, record =>
    if recordLength ≤ (record ++ bs).length then
      ((record ++ bs).take recordLength ::
        (connReader rest ((record ++ bs).drop recordLength)).1,
        (connReader rest ((record ++ bs).drop recordLength)).2)
    else connReader rest (record ++ bs)

/-- The read results of a connection that delivers the given chunks and is
then closed by the peer. -/
def delivery (chunks : List (List Byte)) : List ReadEvent :=
  chunks.map ReadEvent.data ++ [ReadEvent.eof]

/-! ## Exchange dialer -/

/-- The frame `append([]byte{byte(0)}, record...)` built by the sender. -/
def dataFrame (record : Record) : Frame := (0 : Byte) :: record

/-- The goroutine started by `dial` for one connection: the bytes it writes,
in order. -/
def sendBucket : List Record → List Byte
  | [] => genEnd recordLength 1
  | record :: rest => dataFrame record ++ sendBucket rest

/-- The function `dial`: for every server of the topology other than this
node, one connection carrying that server's bucket.  The result lists the
connections as (peer id, bytes written). -/
def dial (serverId : Int) : List Int → Distribution → List (Int × List Byte)
  | [], _ => []
  | server :: rest, distribution =>
    if server ≠ serverId then
      (server, sendBucket (distribution server)) :: dial serverId rest distribution
    else dial serverId rest distribution

/-- The 101-byte frame whose every byte is 1. -/
def sentinelFrame : Frame := List.replicate 101 (1 : Byte)

/-! ## Assembly loop -/

/-- The result of the assembly loop. -/
inductive Assembly where
  | done (records : List Record) (unread : List Frame)
  | blocked
  | panicked
  deriving DecidableEq, Repr

/-- The body of the assembly loop after a frame was received: a frame whose
first byte is 1 increments the counter, any other frame is appended without
its first byte.  `none` is the panic of `record[0]` on an empty frame. -/
def assembleStep (records : List Record) (cnt : Int) (record : Frame) :
    Option (List Record × Int) :=
  match record with
  | [] => none
  | c :: body => if c = 1 then some (records, cnt + 1) else some (records ++ [body], cnt)

/-- The assembly loop of `main`, over the frames in their order of arrival.
`blocked`: the loop waits on the channel and no frame is left. -/
def assemble (numServers : Nat) : List Frame → List Record → Int → Assembly
  | [], records, cnt =>
    if cnt = (numServers : Int) - 1 then Assembly.done records [] else Assembly.blocked
  | record :: rest, records, cnt =>
    if cnt = (numServers : Int) - 1 then Assembly.done records (record :: rest)
    else
      match assembleStep records cnt record with
      | none => Assembly.panicked
      | some (records1, cnt1) => assemble numServers rest records1 cnt1

/-! ## Local sorter and writer -/

/-- Go's comparison `string(a) < string(b)`: byte-wise lexicographic, a
proper prefix being smaller. -/
def bytesLess : List Byte → List Byte → Bool
  | [], [] => false
  | [], _ :: _ => true
  | _ :: _, [] => false
  | a :: as, b :: bs => decide (a < b) || (decide (a = b) && bytesLess as bs)

/-- The callback given to `sort.Slice` by `sortWrite`:
`string(result[i][:10]) < string(result[j][:10])`.  `r[:10]` is `take 10`,
which is exact for a record of at least ten bytes (Go re-slices up to the
capacity, which the embedding does not track). -/
def keyLess (a b : Record) : Bool := bytesLess (a.take 10) (b.take 10)

/-- One step of insertion sort: the sorted part is held last element first,
and `x` moves towards the front while `less x y`. -/
def insertionStep {α : Type} (less : α → α → Bool) (x : α) : List α → List α
  | [] => [x]
  | y :: ys => if less x y then y :: insertionStep less x ys else x :: y :: ys

/-- The library function `sort.Slice`, which is not part of the repository.
It is modelled by insertion sort driven by the same `less` callback (the
algorithm Go itself uses on short slices).  The statements below use only
that the result is a rearrangement of the slice in which no element is
`less` than an earlier one; the order among equal keys is never relied on. -/
def sortSlice {α : Type} (less : α → α → Bool) (data : List α) : List α :=
  (data.foldl (fun sorted x => insertionStep less x sorted) []).reverse

/-- The function `sortWrite`: the bytes written to the output file. -/
def sortWrite (result : List Record) : List Byte :=
  (sortSlice keyLess result).flatten

/-- Byte-wise lexicographic "less than or equal" on byte strings, the order
in which the specification compares keys. -/
def bytesLE : List Byte → List Byte → Bool
  | [], _ => true
  | _ :: _, [] => false
  | a :: as, b :: bs => decide (a < b) || (decide (a = b) && bytesLE as bs)

/-- The key of the first record is byte-lexicographically less than or equal
to the key of the second; the key is the first ten bytes. -/
def keyLE (a b : Record) : Prop := bytesLE (a.take 10) (b.take 10) = true

instance (a b : Record) : Decidable (keyLE a b) := by
  unfold keyLE; infer_instance

/-! ## The program -/

/-- How a run of `main` ends. -/
inductive Outcome where
  | wrote (output : List Byte)
  | blocked
  | panicked
  deriving DecidableEq, Repr

/-- The branch of `main` taken when the topology has one server. -/
def singlePath (file : List Byte) : Outcome :=
  Outcome.wrote (sortWrite (readRecords file))

/-- The rest of `main`: the emptiness check, the partitioning phase, the
exchange (seen from this node as the frames arriving on its channel), the
assembly loop and the sort. -/
def distributedPath (serverId : Int) (servers : List Int) (file : List Byte)
    (arrivals : List Frame) : Outcome :=
  if file.length = 0 then Outcome.wrote []
  else
    match distribute servers (readRecords file) with
    | none => Outcome.panicked
    | some distribution =>
      match assemble servers.length arrivals (distribution serverId) 0 with
      | Assembly.done records _ => Outcome.wrote (sortWrite records)
      | Assembly.blocked => Outcome.blocked
      | Assembly.panicked => Outcome.panicked

/-- The function `main` after argument and topology parsing. -/
def main (serverId : Int) (servers : List Int) (file : List Byte)
    (arrivals : List Frame) : Outcome :=
  if servers.length = 1 then singlePath file
  else distributedPath serverId servers file arrivals

/-! ## The cluster -/

/-- How far the sender of one connection gets.  `main` starts `dial` as a
goroutine, and `dial` starts one sender goroutine per connection; `main`
returns right after its own last sentinel and waits for none of them, so a
connection may never be opened (`unopened`), may carry only the first `n`
bytes of its stream (`cut n`), or may carry all of it (`whole`). -/
inductive Sent where
  | unopened
  | cut (n : Nat)
  | whole
  deriving DecidableEq, Repr

/-- What a connection carries of the stream its sender would write, if
anything. -/
def Sent.deliver (s : Sent) (stream : List Byte) : Option (List Byte) :=
  match s with
  | Sent.unopened => none
  | Sent.cut n => some (stream.take n)
  | Sent.whole => some stream

/-- The connections a node opens during its run and the bytes it writes on
each, following `main`: none on the single-server branch, none when the
input file is empty (the run returns before `dial` is started), none when
partitioning panics; otherwise the connections of `dial`, each as far as
its sender gets (`progress`, by peer). -/
def outbound (serverId : Int) (servers : List Int) (file : List Byte)
    (progress : Int → Sent) : List (Int × List Byte) :=
  if servers.length = 1 then []
  else if file.length = 0 then []
  else
    match distribute servers (readRecords file) with
    | none => []
    | some distribution =>
      (dial serverId servers distribution).filterMap
        (fun conn => ((progress conn.1).deliver conn.2).map (fun bytes => (conn.1, bytes)))

/-- The byte streams that reach the listener of node `i` when every server of
the topology runs `main` on its own shard: one stream per connection opened
towards `i`, carrying what its sender wrote; `progress j i` is how far the
sender of node `j` towards node `i` gets. -/
def inbound (i : Int) (servers : List Int) (shards : Int → List Byte)
    (progress : Int → Int → Sent) : List (List Byte) :=
  (servers.map (fun j =>
    ((outbound j servers (shards j) (progress j)).filter
      (fun conn => conn.1 == i)).map Prod.snd)).flatten

/-- The frames of an arrival order that came over connection `c`. -/
def framesFrom (c : Nat) (tagged : List (Nat × Frame)) : List Frame :=
  (tagged.filter (fun t => t.1 == c)).map Prod.snd

/-- An arrival order on a node's channel, every frame tagged with the index
of the connection it came over, is valid for the given inbound streams when
the frames of every connection, in order, are what the reader of that
connection pushes for some fragmentation of its stream into reads of at most
101 bytes, followed by end-of-stream. -/
def ValidArrival (streams : List (List Byte)) (tagged : List (Nat × Frame)) : Prop :=
  (∀ t ∈ tagged, t.1 < streams.length) ∧
  ∀ (c : Nat) (stream : List Byte), streams[c]? = some stream →
    ∃ chunks : List (List Byte), (∀ x ∈ chunks, x.length ≤ 101) ∧
      chunks.flatten = stream ∧
      framesFrom c tagged = (connReader (delivery chunks) []).1

/-- A 100-byte record whose first byte is `b` and whose other bytes are 7. -/
def sampleRecord (b : Byte) : Record := b :: List.replicate 99 (7 : Byte)

/-- The input of the two-node scenario of the specification: node 0 holds
three records with first key bytes 0x10, 0x05 and 0x90, node 1 holds none. -/
def scenarioInput (node : Int) : List Record :=
  if node = 0 then [sampleRecord 0x10, sampleRecord 0x05, sampleRecord 0x90] else []

/-- An input for two nodes in which no shard is empty. -/
def balancedInput (node : Int) : List Record :=
  if node = 0 then [sampleRecord 0x90, sampleRecord 0x05] else [sampleRecord 0x10]

/-- Every sender runs to its end. -/
def allWhole : Int → Int → Sent := fun _ _ => Sent.whole

/-- Node 0 returns before its `dial` goroutine has opened a connection; the
sender of node 1 runs to its end. -/
def earlyExit : Int → Int → Sent := fun j _ => if j = 0 then Sent.unopened else Sent.whole

/-- An arrival order for `balancedInput`: each node receives, over its only
inbound connection, the record its peer holds for it and then the sentinel. -/
def balancedArrivals (node : Int) : List (Nat × Frame) :=
  if node = 0 then [(0, dataFrame (sampleRecord 0x10)), (0, sentinelFrame)]
  else [(0, dataFrame (sampleRecord 0x90)), (0, sentinelFrame)]

/-! ## Reference descriptions used in the statements -/

/-- The frames of a byte stream as the specification describes them: frame
`i` is the bytes `101 * i .. 101 * i + 100`, for every `i` below
`length / 101`. -/
def framesOf (s : List Byte) : List Frame :=
  (List.range (s.length / 101)).map (fun i => (s.drop (101 * i)).take 101)

/-- The first byte of the frame is 1 (what the assembly loop tests). -/
def isSentinel (f : Frame) : Bool := decide (f.head? = some (1 : Byte))

/-- The records carried by a sequence of frames: the frames whose first byte
is not 1, each without its first byte, in order. -/
def payloads (frames : List Frame) : List Record :=
  (frames.filter (fun f => !isSentinel f)).map (List.drop 1)

/-- The records of a list that the partitioner routes to the given node, in
their order. -/
def ownedBy (numServers : Nat) (key : Int) (records : List Record) : List Record :=
  records.filter (fun r => ownerID r numServers == some key)

/-- The topology of a cluster of `n` nodes with ids `0 .. n - 1`, in
ascending order. -/
def denseIds (n : Nat) : List Int := (List.range n).map Int.ofNat

/-! ## The partitioner -/

theorem log2Loop_two_pow (fuel : Nat) : ∀ k : Nat, k < fuel → log2Loop fuel (2 ^ k) = k := by
  induction fuel with
  | zero => intro k hk; omega
  | succ fuel ih =>
    intro k hk
    cases k with
    | zero => simp [log2Loop]
    | succ k =>
      have h2 : 2 ≤ 2 ^ (k + 1) := by
        have := Nat.one_le_two_pow (n := k)
        rw [pow_succ]; omega
      have hdiv : 2 ^ (k + 1) / 2 = 2 ^ k := by
        rw [pow_succ]; exact Nat.mul_div_cancel _ (by decide)
      simp only [log2Loop, h2, if_true, hdiv]
      rw [ih k (by omega)]

theorem log2Floor_two_pow (k : Nat) : log2Floor (2 ^ k) = (k : Int) := by
  unfold log2Floor
  rw [log2Loop_two_pow _ k (Nat.lt_two_pow k)]

theorem ownerID_cons (k : Nat) (hk : k ≤ 8) (b : Byte) (rest : List Byte) :
    ownerID (b :: rest) (2 ^ k) = some ((b.val >>> (8 - k) : Nat) : Int) := by
  have hs : (8 : Int) - (k : Int) = ((8 - k : Nat) : Int) := by omega
  simp only [ownerID, log2Floor_two_pow, hs]
  have hneg : ¬ (((8 - k : Nat) : Int) < 0) := by omega
  rw [if_neg hneg, Int.toNat_ofNat]

theorem shiftRight_lt_two_pow (k : Nat) (hk : k ≤ 8) (b : Byte) :
    b.val >>> (8 - k) < 2 ^ k := by
  rw [Nat.shiftRight_eq_div_pow, Nat.div_lt_iff_lt_mul (Nat.two_pow_pos _), ← pow_add]
  have : k + (8 - k) = 8 := by omega
  rw [this]
  exact b.isLt

/-! ## Byte-string order -/

theorem bytesLE_eq_not_bytesLess : ∀ a b : List Byte, bytesLE a b = !bytesLess b a
  | [], [] => rfl
  | [], _ :: _ => rfl
  | _ :: _, [] => rfl
  | a :: as, b :: bs => by
    have ih := bytesLE_eq_not_bytesLess as bs
    simp only [bytesLE, bytesLess, ih]
    rcases lt_trichotomy a b with h | h | h
    · have h2 : ¬ b < a := lt_asymm h
      have h3 : b ≠ a := ne_of_gt h
      simp [h, h2, h3]
    · subst h; simp
    · have h2 : ¬ a < b := lt_asymm h
      have h3 : a ≠ b := ne_of_gt h
      have h4 : b ≠ a := ne_of_lt h
      simp [h, h2, h3]

theorem bytesLess_asymm : ∀ a b : List Byte, bytesLess a b = true → bytesLess b a = false
  | [], [] => by simp [bytesLess]
  | [], _ :: _ => by simp [bytesLess]
  | _ :: _, [] => by simp [bytesLess]
  | a :: as, b :: bs => by
    have ih := bytesLess_asymm as bs
    simp only [bytesLess, Bool.or_eq_true, Bool.and_eq_true, decide_eq_true_eq,
      Bool.or_eq_false_iff, Bool.and_eq_false_imp, decide_eq_false_iff_not]
    rintro (h | ⟨h, h1⟩)
    · exact ⟨lt_asymm h, fun h2 => absurd h2.symm (ne_of_lt h)⟩
    · exact ⟨by rw [h]; exact lt_irrefl b, fun _ => ih h1⟩

theorem bytesLess_negtrans : ∀ a b c : List Byte,
    bytesLess a b = false → bytesLess b c = false → bytesLess a c = false
  | [], [], _ => by simp [bytesLess]
  | [], _ :: _, _ => by simp [bytesLess]
  | _ :: _, [], [] => by simp [bytesLess]
  | _ :: _, [], _ :: _ => by simp [bytesLess]
  | _ :: _, _ :: _, [] => by simp [bytesLess]
  | a :: as, b :: bs, c :: cs => by
    have ih := bytesLess_negtrans as bs cs
    simp only [bytesLess, Bool.or_eq_false_iff, Bool.and_eq_false_imp, decide_eq_true_eq,
      decide_eq_false_iff_not]
    rintro ⟨h1, h2⟩ ⟨h3, h4⟩
    have hba : b ≤ a := not_lt.1 h1
    have hcb : c ≤ b := not_lt.1 h3
    refine ⟨not_lt.2 (le_trans hcb hba), fun h5 => ?_⟩
    have hab : a = b := le_antisymm (by rw [h5]; exact hcb) hba
    have hbc : b = c := le_antisymm (by rw [← hab, h5]) hcb
    exact ih (h2 hab) (h4 hbc)

theorem keyLess_asymm (a b : Record) : keyLess a b = true → keyLess b a = false :=
  bytesLess_asymm _ _

theorem keyLess_negtrans (a b c : Record) :
    keyLess a b = false → keyLess b c = false → keyLess a c = false :=
  bytesLess_negtrans _ _ _

theorem keyLE_iff (a b : Record) : keyLE a b ↔ keyLess b a = false := by
  unfold keyLE keyLess
  rw [bytesLE_eq_not_bytesLess]
  simp

/-! ## The library sort -/

theorem insertionStep_perm {α : Type} (less : α → α → Bool) (x : α) :
    ∀ l : List α, (insertionStep less x l).Perm (x :: l)
  | [] => List.Perm.refl _
  | y :: ys => by
    unfold insertionStep
    split
    · exact ((insertionStep_perm less x ys).cons y).trans (List.Perm.swap x y ys)
    · exact List.Perm.refl _

theorem foldl_insertionStep_perm {α : Type} (less : α → α → Bool) :
    ∀ (data sorted : List α),
      (data.foldl (fun sorted x => insertionStep less x sorted) sorted).Perm (sorted ++ data)
  | [], sorted => by simp
  | x :: data, sorted => by
    rw [List.foldl_cons]
    refine (foldl_insertionStep_perm less data _).trans ?_
    refine ((insertionStep_perm less x sorted).append_right data).trans ?_
    simpa using (@List.perm_middle _ x sorted data).symm

theorem sortSlice_perm {α : Type} (less : α → α → Bool) (data : List α) :
    (sortSlice less data).Perm data := by
  unfold sortSlice
  refine (List.reverse_perm _).trans ?_
  simpa using foldl_insertionStep_perm less data []

theorem insertionStep_sorted {α : Type} (less : α → α → Bool)
    (hasymm : ∀ a b, less a b = true → less b a = false)
    (hneg : ∀ a b c, less a b = false → less b c = false → less a c = false) (x : α) :
    ∀ l : List α, l.Pairwise (fun later earlier => less later earlier = false) →
      (insertionStep less x l).Pairwise (fun later earlier => less later earlier = false)
  | [], _ => by simp [insertionStep]
  | y :: ys, h => by
    rw [List.pairwise_cons] at h
    unfold insertionStep
    split
    · rename_i hxy
      rw [List.pairwise_cons]
      refine ⟨fun z hz => ?_, insertionStep_sorted less hasymm hneg x ys h.2⟩
      rcases List.mem_cons.1 ((insertionStep_perm less x ys).subset hz) with hzx | hzy
      · subst hzx; exact hasymm _ _ hxy
      · exact h.1 z hzy
    · rename_i hxy
      have hxy1 : less x y = false := by simpa using hxy
      rw [List.pairwise_cons]
      refine ⟨fun z hz => ?_, List.pairwise_cons.2 h⟩
      rcases List.mem_cons.1 hz with hzy | hzy
      · subst hzy; exact hxy1
      · exact hneg _ _ _ hxy1 (h.1 z hzy)

theorem foldl_insertionStep_sorted {α : Type} (less : α → α → Bool)
    (hasymm : ∀ a b, less a b = true → less b a = false)
    (hneg : ∀ a b c, less a b = false → less b c = false → less a c = false) :
    ∀ (data sorted : List α),
      sorted.Pairwise (fun later earlier => less later earlier = false) →
      (data.foldl (fun sorted x => insertionStep less x sorted) sorted).Pairwise
        (fun later earlier => less later earlier = false)
  | [], _, h => h
  | x :: data, sorted, h => by
    rw [List.foldl_cons]
    exact foldl_insertionStep_sorted less hasymm hneg data _
      (insertionStep_sorted less hasymm hneg x sorted h)

theorem sortSlice_sorted {α : Type} (less : α → α → Bool)
    (hasymm : ∀ a b, less a b = true → less b a = false)
    (hneg : ∀ a b c, less a b = false → less b c = false → less a c = false)
    (data : List α) :
    (sortSlice less data).Pairwise (fun earlier later => less later earlier = false) := by
  unfold sortSlice
  rw [List.pairwise_reverse]
  exact foldl_insertionStep_sorted less hasymm hneg data [] List.Pairwise.nil

theorem sortSlice_keyLE (result : List Record) :
    (sortSlice keyLess result).Pairwise keyLE := by
  refine (sortSlice_sorted keyLess keyLess_asymm keyLess_negtrans result).imp ?_
  intro a b h
  exact (keyLE_iff a b).2 h

/-! ## Frames: the dialer's encoding and the assembly loop's decoding -/

theorem genEnd_eq_replicate (num : Nat) (val : Int) :
    genEnd num val = List.replicate num (toByte val) := by
  simp [genEnd]

theorem genEnd_sentinel : genEnd recordLength 1 = sentinelFrame := by
  rw [genEnd_eq_replicate]; rfl

theorem sendBucket_eq (bucket : List Record) :
    sendBucket bucket = (bucket.map dataFrame).flatten ++ sentinelFrame := by
  induction bucket with
  | nil => simp [sendBucket, genEnd_sentinel]
  | cons r rest ih => simp [sendBucket, ih]

theorem length_flatten_dataFrame (bucket : List Record) (hlen : ∀ r ∈ bucket, r.length = 100) :
    ((bucket.map dataFrame).flatten).length = 101 * bucket.length := by
  induction bucket with
  | nil => simp
  | cons r rest ih =>
    have hr : r.length = 100 := hlen r (List.mem_cons_self _ _)
    have := ih (fun x hx => hlen x (List.mem_cons_of_mem _ hx))
    simp only [List.map_cons, List.flatten_cons, List.length_append, List.length_cons, this,
      dataFrame, hr]
    omega

theorem mem_dial (serverId : Int) (distribution : Distribution) (conn : Int × List Byte) :
    ∀ servers : List Int, conn ∈ dial serverId servers distribution ↔
      conn.1 ∈ servers ∧ conn.1 ≠ serverId ∧ conn.2 = sendBucket (distribution conn.1)
  | [] => by simp [dial]
  | server :: rest => by
    have ih := mem_dial serverId distribution conn rest
    unfold dial
    split
    · rename_i hne
      rw [List.mem_cons, ih, List.mem_cons]
      constructor
      · rintro (h | h)
        · subst h; exact ⟨Or.inl rfl, hne, rfl⟩
        · exact ⟨Or.inr h.1, h.2⟩
      · rintro ⟨h1 | h1, h2, h3⟩
        · left; exact Prod.ext h1 (by rw [h3, h1])
        · right; exact ⟨h1, h2, h3⟩
    · rename_i heq
      have heq1 : server = serverId := by simpa using heq
      rw [ih, List.mem_cons]
      constructor
      · rintro ⟨h1, h2⟩; exact ⟨Or.inr h1, h2⟩
      · rintro ⟨h1 | h1, h2, h3⟩
        · exact absurd (h1.trans heq1) h2
        · exact ⟨h1, h2, h3⟩

/-! ## The per-connection reader -/

theorem framesOf_short (s : List Byte) (h : s.length < 101) : framesOf s = [] := by
  unfold framesOf
  rw [Nat.div_eq_of_lt h]
  rfl

theorem framesOf_step (s : List Byte) (h : 101 ≤ s.length) :
    framesOf s = s.take 101 :: framesOf (s.drop 101) := by
  unfold framesOf
  have hdiv : s.length / 101 = (s.drop 101).length / 101 + 1 := by
    rw [List.length_drop]
    omega
  rw [hdiv, List.range_succ_eq_map, List.map_cons, List.map_map]
  refine congrArg₂ _ (by simp) ?_
  refine List.map_congr_left ?_
  intro i _
  simp only [Function.comp, List.drop_drop]
  congr 2
  omega

theorem connReader_delivery :
    ∀ (chunks : List (List Byte)), (∀ c ∈ chunks, c.length ≤ 101) →
      ∀ record : List Byte, record.length < 101 →
        connReader (delivery chunks) record
          = (framesOf (record ++ chunks.flatten), ReaderExit.returned)
  | [], _, record, hrec => by
    simp [delivery, connReader, framesOf_short record hrec]
  | c :: cs, hsz, record, hrec => by
    have hc : c.length ≤ 101 := hsz c (List.mem_cons_self _ _)
    have hcs : ∀ x ∈ cs, x.length ≤ 101 := fun x hx => hsz x (List.mem_cons_of_mem _ hx)
    have hdel : delivery (c :: cs) = ReadEvent.data c :: delivery cs := by
      simp [delivery]
    rw [hdel, connReader]
    by_cases hfull : recordLength ≤ (record ++ c).length
    · have hfull1 : 101 ≤ (record ++ c).length := hfull
      have hrest : ((record ++ c).drop 101).length < 101 := by
        rw [List.length_drop, List.length_append]; omega
      rw [if_pos hfull]
      have ih := connReader_delivery cs hcs ((record ++ c).drop 101) hrest
      have hwhole : 101 ≤ (record ++ (c :: cs).flatten).length := by
        simp only [List.flatten_cons, List.length_append] at hfull1 ⊢; omega
      rw [framesOf_step _ hwhole]
      simp only [recordLength, ih]
      have e1 : (record ++ (c :: cs).flatten).take 101 = (record ++ c).take 101 := by
        rw [List.flatten_cons, ← List.append_assoc, List.take_append_of_le_length hfull1]
      have e2 : (record ++ (c :: cs).flatten).drop 101
          = (record ++ c).drop 101 ++ cs.flatten := by
        rw [List.flatten_cons, ← List.append_assoc, List.drop_append_of_le_length hfull1]
      rw [e1, e2]
    · rw [if_neg hfull]
      have hlt : (record ++ c).length < 101 := by
        have : ¬ 101 ≤ (record ++ c).length := hfull
        omega
      rw [connReader_delivery cs hcs (record ++ c) hlt]
      simp

theorem getElem?_framesOf (s : List Byte) (i : Nat) (hi : i < s.length / 101) :
    (framesOf s)[i]? = some ((s.drop (101 * i)).take 101) := by
  unfold framesOf
  rw [List.getElem?_map, List.getElem?_range hi]
  rfl

theorem length_framesOf (s : List Byte) : (framesOf s).length = s.length / 101 := by
  simp [framesOf]

/-! ## The assembly loop -/

theorem assemble_at_target (numServers : Nat) (frames : List Frame) (records : List Record)
    (cnt : Int) (h : cnt = (numServers : Int) - 1) :
    assemble numServers frames records cnt = Assembly.done records frames := by
  cases frames with
  | nil => simp [assemble, h]
  | cons f fs => simp [assemble, h]

theorem assemble_cons_sentinel (numServers : Nat) (f : Frame) (fs : List Frame)
    (records : List Record) (cnt : Int) (h : cnt ≠ (numServers : Int) - 1)
    (hf : isSentinel f = true) :
    assemble numServers (f :: fs) records cnt = assemble numServers fs records (cnt + 1) := by
  cases f with
  | nil => simp [isSentinel] at hf
  | cons c body =>
    have hc : c = 1 := by simpa [isSentinel] using hf
    simp [assemble, h, assembleStep, hc]

theorem assemble_cons_data (numServers : Nat) (f : Frame) (fs : List Frame)
    (records : List Record) (cnt : Int) (h : cnt ≠ (numServers : Int) - 1)
    (hne : f ≠ []) (hf : isSentinel f = false) :
    assemble numServers (f :: fs) records cnt
      = assemble numServers fs (records ++ [f.drop 1]) cnt := by
  cases f with
  | nil => exact absurd rfl hne
  | cons c body =>
    have hc : ¬ c = 1 := by simpa [isSentinel] using hf
    simp [assemble, h, assembleStep, hc]

theorem payloads_cons_sentinel (f : Frame) (fs : List Frame) (hf : isSentinel f = true) :
    payloads (f :: fs) = payloads fs := by
  simp [payloads, hf]

theorem payloads_cons_data (f : Frame) (fs : List Frame) (hf : isSentinel f = false) :
    payloads (f :: fs) = f.drop 1 :: payloads fs := by
  simp [payloads, hf]

theorem assemble_run (numServers : Nat) :
    ∀ (frames : List Frame) (records : List Record) (cnt : Int) (m : Nat),
      cnt + (m : Int) + 1 = (numServers : Int) - 1 →
      (∀ f ∈ frames, f ≠ []) →
      m + 1 ≤ frames.countP isSentinel →
      ∃ pre s post, frames = pre ++ s :: post ∧ isSentinel s = true ∧
        pre.countP isSentinel = m ∧
        assemble numServers frames records cnt
          = Assembly.done (records ++ payloads pre) post
  | [], _, _, _, _, _, hcount => by simp at hcount
  | f :: fs, records, cnt, m, hcnt, hne, hcount => by
    have hgo : cnt ≠ (numServers : Int) - 1 := by omega
    have hfs : ∀ x ∈ fs, x ≠ [] := fun x hx => hne x (List.mem_cons_of_mem _ hx)
    cases hf : isSentinel f with
    | true =>
      rw [assemble_cons_sentinel numServers f fs records cnt hgo hf]
      cases m with
      | zero =>
        refine ⟨[], f, fs, rfl, hf, rfl, ?_⟩
        rw [assemble_at_target numServers fs records (cnt + 1) (by omega)]
        simp [payloads]
      | succ m =>
        have hcount1 : m + 1 ≤ fs.countP isSentinel := by
          rw [List.countP_cons_of_pos _ _ hf] at hcount; omega
        obtain ⟨pre, s, post, hsplit, hs, hpre, hrun⟩ :=
          assemble_run numServers fs records (cnt + 1) m (by push_cast at hcnt ⊢; omega)
            hfs hcount1
        refine ⟨f :: pre, s, post, by rw [hsplit]; rfl, hs, ?_, ?_⟩
        · rw [List.countP_cons_of_pos _ _ hf, hpre]
        · rw [hrun, payloads_cons_sentinel f pre hf]
    | false =>
      rw [assemble_cons_data numServers f fs records cnt hgo (hne f (List.mem_cons_self _ _)) hf]
      have hcount1 : m + 1 ≤ fs.countP isSentinel := by
        rw [List.countP_cons_of_neg _ _ (by simp [hf])] at hcount; exact hcount
      obtain ⟨pre, s, post, hsplit, hs, hpre, hrun⟩ :=
        assemble_run numServers fs (records ++ [f.drop 1]) cnt m hcnt hfs hcount1
      refine ⟨f :: pre, s, post, by rw [hsplit]; rfl, hs, ?_, ?_⟩
      · rw [List.countP_cons_of_neg _ _ (by simp [hf]), hpre]
      · rw [hrun, payloads_cons_data f pre hf]
        simp

/-! ## The partition map -/

theorem classify_nodup (numServers : Nat) (buf : Record) (ID : Int)
    (hown : ownerID buf numServers = some ID) :
    ∀ (servers : List Int) (d : Distribution), servers.Nodup →
      classify numServers buf servers d
        = some (if ID ∈ servers then d.push ID buf else d)
  | [], d, _ => by simp [classify]
  | serv :: rest, d, hnd => by
    rw [List.nodup_cons] at hnd
    unfold classify
    simp only [hown]
    by_cases h : ID = serv
    · subst h
      rw [if_pos rfl, classify_nodup numServers buf ID hown rest _ hnd.2, if_neg hnd.1]
      simp
    · rw [if_neg h, classify_nodup numServers buf ID hown rest _ hnd.2]
      simp [h]

theorem distributeLoop_eq (servers : List Int) (hnd : servers.Nodup) :
    ∀ (records : List Record) (d : Distribution),
      (∀ r ∈ records, ∃ ID ∈ servers, ownerID r servers.length = some ID) →
      distributeLoop servers records d
        = some (fun key => d key ++ ownedBy servers.length key records)
  | [], d, _ => by simp [distributeLoop, ownedBy]
  | buf :: rest, d, hown => by
    obtain ⟨ID, hmem, hID⟩ := hown buf (List.mem_cons_self _ _)
    have hrest : ∀ r ∈ rest, ∃ ID ∈ servers, ownerID r servers.length = some ID :=
      fun r hr => hown r (List.mem_cons_of_mem _ hr)
    unfold distributeLoop
    rw [classify_nodup servers.length buf ID hID servers d hnd, if_pos hmem]
    simp only
    rw [distributeLoop_eq servers hnd rest _ hrest]
    congr 1
    funext key
    by_cases hkey : key = ID
    · subst hkey
      simp [Distribution.push, ownedBy, List.filter_cons, hID]
    · have hne : ¬ ID = key := fun h => hkey h.symm
      simp [Distribution.push, ownedBy, List.filter_cons, hID, hkey, hne]

theorem ownedBy_cons_other (numServers : Nat) (r : Record) (rest : List Record) (key : Int)
    (h : ownerID r numServers ≠ some key) :
    ownedBy numServers key (r :: rest) = ownedBy numServers key rest := by
  simp [ownedBy, List.filter_cons, h]

theorem ownedBy_cons_self (numServers : Nat) (r : Record) (rest : List Record) (key : Int)
    (h : ownerID r numServers = some key) :
    ownedBy numServers key (r :: rest) = r :: ownedBy numServers key rest := by
  simp [ownedBy, List.filter_cons, h]

theorem buckets_cons_perm (numServers : Nat) (r : Record) (rest : List Record) (ID : Int)
    (hID : ownerID r numServers = some ID) :
    ∀ servers : List Int, servers.Nodup → ID ∈ servers →
      ((servers.map (fun key => ownedBy numServers key (r :: rest))).flatten).Perm
        (r :: (servers.map (fun key => ownedBy numServers key rest)).flatten)
  | [], _, hmem => by simp at hmem
  | s :: ss, hnd, hmem => by
    rw [List.nodup_cons] at hnd
    simp only [List.map_cons, List.flatten_cons]
    by_cases hs : s = ID
    · subst hs
      have hother : ss.map (fun key => ownedBy numServers key (r :: rest))
          = ss.map (fun key => ownedBy numServers key rest) := by
        refine List.map_congr_left ?_
        intro key hkey
        refine ownedBy_cons_other numServers r rest key ?_
        rw [hID]
        intro h
        exact hnd.1 (by rw [Option.some.inj h]; exact hkey)
      rw [hother, ownedBy_cons_self numServers r rest s hID]
      exact List.Perm.refl _
    · have hmem1 : ID ∈ ss := by
        rcases List.mem_cons.1 hmem with h | h
        · exact absurd h.symm hs
        · exact h
      have hne : ownerID r numServers ≠ some s := by
        rw [hID]; intro h; exact hs (Option.some.inj h).symm
      rw [ownedBy_cons_other numServers r rest s hne]
      have ih := buckets_cons_perm numServers r rest ID hID ss hnd.2 hmem1
      exact (ih.append_left _).trans List.perm_middle

theorem buckets_perm (numServers : Nat) (servers : List Int) (hnd : servers.Nodup) :
    ∀ records : List Record,
      (∀ r ∈ records, ∃ ID ∈ servers, ownerID r numServers = some ID) →
      ((servers.map (fun key => ownedBy numServers key records)).flatten).Perm records
  | [], _ => by
    have : ∀ l : List Int, (l.map (fun key => ownedBy numServers key [])).flatten = [] := by
      intro l; induction l with
      | nil => rfl
      | cons a l ih => simp [ownedBy]
    rw [this]
  | r :: rest, hown => by
    obtain ⟨ID, hmem, hID⟩ := hown r (List.mem_cons_self _ _)
    refine (buckets_cons_perm numServers r rest ID hID servers hnd hmem).trans ?_
    exact (buckets_perm numServers servers hnd rest
      (fun x hx => hown x (List.mem_cons_of_mem _ hx))).cons r

/-! ## Dense topologies -/

theorem nodup_denseIds (n : Nat) : (denseIds n).Nodup := by
  unfold denseIds
  exact (List.nodup_range n).map (fun a b h => Int.ofNat.inj h)

theorem mem_denseIds (n : Nat) (key : Int) :
    key ∈ denseIds n ↔ ∃ i : Nat, i < n ∧ (i : Int) = key := by
  unfold denseIds
  rw [List.mem_map]
  constructor
  · rintro ⟨i, hi, rfl⟩; exact ⟨i, List.mem_range.1 hi, rfl⟩
  · rintro ⟨i, hi, rfl⟩; exact ⟨i, List.mem_range.2 hi, rfl⟩

theorem perm_dense_nodup (servers : List Int) (n : Nat) (h : servers.Perm (denseIds n)) :
    servers.Nodup := h.nodup_iff.2 (nodup_denseIds n)

theorem perm_dense_length (servers : List Int) (n : Nat) (h : servers.Perm (denseIds n)) :
    servers.length = n := by
  rw [h.length_eq]; simp [denseIds]

theorem owner_mem_servers (k : Nat) (hk : k ≤ 8) (servers : List Int)
    (hperm : servers.Perm (denseIds (2 ^ k))) (r : Record) (hr : r ≠ []) :
    ∃ ID ∈ servers, ownerID r (2 ^ k) = some ID := by
  cases r with
  | nil => exact absurd rfl hr
  | cons b rest =>
    refine ⟨_, ?_, ownerID_cons k hk b rest⟩
    rw [hperm.mem_iff, mem_denseIds]
    exact ⟨_, shiftRight_lt_two_pow k hk b, rfl⟩

/-! ## Routing follows the key order -/

theorem shiftRight_eq_div (k : Nat) (b : Byte) : b.val >>> (8 - k) = b.val / 2 ^ (8 - k) :=
  Nat.shiftRight_eq_div_pow _ _


theorem ownerID_lt_keyLess (k : Nat) (hk : k ≤ 8) (a b : Record) (oa ob : Int)
    (ha : ownerID a (2 ^ k) = some oa) (hb : ownerID b (2 ^ k) = some ob) (hlt : oa < ob) :
    keyLess a b = true := by
  cases a with
  | nil => simp [ownerID] at ha
  | cons x as =>
    cases b with
    | nil => simp [ownerID] at hb
    | cons y bs =>
      rw [ownerID_cons k hk] at ha hb
      have hoa := Option.some.inj ha
      have hob := Option.some.inj hb
      rw [← hoa, ← hob] at hlt
      have hlt1 : x.val >>> (8 - k) < y.val >>> (8 - k) := by exact_mod_cast hlt
      have hxy : x < y := by
        by_contra hcon
        have hyx : y.val ≤ x.val := not_lt.1 hcon
        have := Nat.div_le_div_right (c := 2 ^ (8 - k)) hyx
        rw [Nat.shiftRight_eq_div_pow, Nat.shiftRight_eq_div_pow] at hlt1
        omega
      simp [keyLess, bytesLess, hxy]

theorem ownerID_total (k : Nat) (hk : k ≤ 8) (a : Record) (ha : a ≠ []) :
    ∃ oa, ownerID a (2 ^ k) = some oa := by
  cases a with
  | nil => exact absurd rfl ha
  | cons x as => exact ⟨_, ownerID_cons k hk x as⟩

theorem mem_ownedBy (numServers : Nat) (key : Int) (records : List Record) (r : Record) :
    r ∈ ownedBy numServers key records ↔ r ∈ records ∧ ownerID r numServers = some key := by
  simp [ownedBy]

theorem pairwise_lt_denseIds (n : Nat) : (denseIds n).Pairwise (fun i j => i < j) := by
  unfold denseIds
  rw [List.pairwise_map]
  exact (List.pairwise_lt_range n).imp (fun h => Int.ofNat_lt.2 h)

theorem pairwise_in_id_order (k : Nat) (hk : k ≤ 8) (outs : Int → List Record)
    (hown : ∀ i ∈ denseIds (2 ^ k), ∀ r ∈ outs i, ownerID r (2 ^ k) = some i)
    (hsorted : ∀ i ∈ denseIds (2 ^ k), (outs i).Pairwise keyLE) :
    (((denseIds (2 ^ k)).map outs).flatten).Pairwise keyLE := by
  rw [List.pairwise_flatten]
  constructor
  · intro l hl
    obtain ⟨i, hi, rfl⟩ := List.mem_map.1 hl
    exact hsorted i hi
  · rw [List.pairwise_map]
    refine (pairwise_lt_denseIds (2 ^ k)).imp_of_mem ?_
    intro i j hi hj hij x hx y hy
    have hless := ownerID_lt_keyLess k hk x y i j (hown i hi x hx) (hown j hj y hy) hij
    exact (keyLE_iff x y).2 (keyLess_asymm x y hless)

theorem sorted_buckets_in_order (k : Nat) (hk : k ≤ 8) (records : List Record) :
    (((denseIds (2 ^ k)).map
      (fun i => sortSlice keyLess (ownedBy (2 ^ k) i records))).flatten).Pairwise keyLE := by
  refine pairwise_in_id_order k hk _ ?_ (fun i _ => sortSlice_keyLE _)
  intro i _ r hr
  exact ((mem_ownedBy _ _ _ _).1 ((sortSlice_perm keyLess _).subset hr)).2

/-! ## Reading a file of whole records -/

theorem readLoop_flatten :
    ∀ (records : List Record) (fuel : Nat), (∀ r ∈ records, r.length = 100) →
      records.length ≤ fuel → readLoop fuel records.flatten = records
  | [], fuel, _, _ => by cases fuel <;> simp [readLoop]
  | r :: rs, 0, _, hfuel => by simp at hfuel
  | r :: rs, fuel + 1, hlen, hfuel => by
    have hr : r.length = 100 := hlen r (List.mem_cons_self _ _)
    have hrs : ∀ x ∈ rs, x.length = 100 := fun x hx => hlen x (List.mem_cons_of_mem _ hx)
    have ih := readLoop_flatten rs fuel hrs (by simpa using hfuel)
    have htake : (r ++ rs.flatten).take 100 = r := by
      rw [List.take_append_of_le_length (by omega), List.take_of_length_le (by omega)]
    have hdrop : (r ++ rs.flatten).drop 100 = rs.flatten := by
      rw [List.drop_append_of_le_length (by omega), List.drop_of_length_le (by omega)]
      rfl
    cases hfile : r ++ rs.flatten with
    | nil =>
      have : (r ++ rs.flatten).length = 0 := by rw [hfile]; rfl
      rw [List.length_append] at this; omega
    | cons b rest =>
      rw [List.flatten_cons, hfile, readLoop, ← hfile, htake, hdrop, ih]

theorem readLoop_enough_fuel :
    ∀ (fuel : Nat) (file : List Byte), file.length ≤ fuel →
      readLoop fuel file = readLoop file.length file ∧ (readLoop fuel file).flatten = file
  | 0, file, h => by
    have : file = [] := List.length_eq_zero.1 (by omega)
    subst this
    exact ⟨rfl, rfl⟩
  | fuel + 1, [], _ => ⟨rfl, rfl⟩
  | fuel + 1, b :: rest, h => by
    have hdrop : ((b :: rest).drop 100).length ≤ fuel := by
      rw [List.length_drop]; simp only [List.length_cons] at h ⊢; omega
    have hdrop1 : ((b :: rest).drop 100).length ≤ rest.length := by
      rw [List.length_drop]; simp only [List.length_cons]; omega
    have ih := readLoop_enough_fuel fuel _ hdrop
    have ih1 := readLoop_enough_fuel rest.length _ hdrop1
    constructor
    · simp only [List.length_cons, readLoop]
      rw [ih.1, ih1.1]
    · simp only [readLoop, List.flatten_cons]
      rw [ih.2, List.take_append_drop]

theorem length_flatten_records (records : List Record) (hlen : ∀ r ∈ records, r.length = 100) :
    records.flatten.length = 100 * records.length := by
  induction records with
  | nil => rfl
  | cons r rs ih =>
    have hr : r.length = 100 := hlen r (List.mem_cons_self _ _)
    have := ih (fun x hx => hlen x (List.mem_cons_of_mem _ hx))
    simp only [List.flatten_cons, List.length_append, List.length_cons, this, hr]
    omega

theorem readRecords_flatten (records : List Record) (hlen : ∀ r ∈ records, r.length = 100) :
    readRecords records.flatten = records := by
  unfold readRecords
  refine readLoop_flatten records _ hlen ?_
  rw [length_flatten_records records hlen]
  omega

/-! ## What a connection carries -/

theorem framesOf_sentinel : framesOf sentinelFrame = [sentinelFrame] := by
  rw [framesOf_step _ (by simp [sentinelFrame]), framesOf_short _ (by simp [sentinelFrame])]
  simp [sentinelFrame]

theorem framesOf_sendBucket :
    ∀ bucket : List Record, (∀ r ∈ bucket, r.length = 100) →
      framesOf (sendBucket bucket) = bucket.map dataFrame ++ [sentinelFrame]
  | [], _ => by
    simp [sendBucket, genEnd_sentinel, framesOf_sentinel]
  | r :: rest, hlen => by
    have hr : r.length = 100 := hlen r (List.mem_cons_self _ _)
    have hframe : (dataFrame r).length = 101 := by simp [dataFrame, hr]
    have ih := framesOf_sendBucket rest (fun x hx => hlen x (List.mem_cons_of_mem _ hx))
    have hlong : 101 ≤ (sendBucket (r :: rest)).length := by
      simp only [sendBucket, List.length_append, hframe]; omega
    rw [framesOf_step _ hlong]
    have e1 : (sendBucket (r :: rest)).take 101 = dataFrame r := by
      simp only [sendBucket]
      rw [List.take_append_of_le_length (by omega), List.take_of_length_le (by omega)]
    have e2 : (sendBucket (r :: rest)).drop 101 = sendBucket rest := by
      simp only [sendBucket]
      rw [List.drop_append_of_le_length (by omega), List.drop_of_length_le (by omega)]
      rfl
    rw [e1, e2, ih]
    rfl

theorem dial_filter (serverId i : Int) (distribution : Distribution) :
    ∀ servers : List Int, servers.Nodup →
      ((dial serverId servers distribution).filter (fun conn => conn.1 == i)).map Prod.snd
        = if i ∈ servers ∧ i ≠ serverId then [sendBucket (distribution i)] else []
  | [], _ => by simp [dial]
  | server :: rest, hnd => by
    rw [List.nodup_cons] at hnd
    have ih := dial_filter serverId i distribution rest hnd.2
    unfold dial
    by_cases hself : server = serverId
    · have hno : ¬ server ≠ serverId := fun h => h hself
      rw [if_neg hno, ih]
      by_cases hi : i = serverId
      · simp [hi]
      · have : ¬ i = server := fun h => hi (h.trans hself)
        simp [hi, this]
    · rw [if_pos hself, List.filter_cons]
      by_cases hi : i = server
      · subst hi
        have : ¬ (i ∈ rest ∧ i ≠ serverId) := fun h => hnd.1 h.1
        rw [if_neg this] at ih
        simp [ih, hself]
      · have hne : ¬ server = i := fun h => hi h.symm
        simp only [beq_iff_eq, hne, if_false, ih, List.mem_cons, hi, false_or]

/-! ## A node of a dense cluster -/

theorem distribute_dense (k : Nat) (hk : k ≤ 8) (servers : List Int)
    (hperm : servers.Perm (denseIds (2 ^ k))) (records : List Record)
    (hne : ∀ r ∈ records, r ≠ []) :
    distribute servers records = some (fun key => ownedBy (2 ^ k) key records) := by
  have hlen := perm_dense_length servers _ hperm
  unfold distribute
  rw [distributeLoop_eq servers (perm_dense_nodup servers _ hperm) records _
    (fun r hr => by rw [hlen]; exact owner_mem_servers k hk servers hperm r (hne r hr))]
  rw [hlen]
  simp

theorem two_le_two_pow (k : Nat) (hk : 1 ≤ k) : 2 ≤ 2 ^ k := by
  calc 2 = 2 ^ 1 := rfl
    _ ≤ 2 ^ k := Nat.pow_le_pow_right (by decide) hk

theorem ne_nil_of_length_100 (records : List Record) (hlen : ∀ r ∈ records, r.length = 100) :
    ∀ r ∈ records, r ≠ [] := by
  intro r hr h
  have := hlen r hr
  rw [h] at this
  simp at this

theorem flatten_length_ne_zero (records : List Record) (hlen : ∀ r ∈ records, r.length = 100)
    (hne : records ≠ []) : records.flatten.length ≠ 0 := by
  rw [length_flatten_records records hlen]
  cases records with
  | nil => exact absurd rfl hne
  | cons r rs => simp

/-! ## The assembly loop on a complete exchange -/

theorem assemble_all (numServers : Nat) :
    ∀ (frames : List Frame) (records : List Record) (cnt : Int),
      cnt + (frames.countP isSentinel : Int) = (numServers : Int) - 1 →
      (∀ f ∈ frames, f ≠ []) →
      (∀ init last, frames = init ++ [last] → isSentinel last = true) →
      assemble numServers frames records cnt
        = Assembly.done (records ++ payloads frames) []
  | [], records, cnt, hcnt, _, _ => by
    rw [assemble_at_target numServers [] records cnt (by simpa using hcnt)]
    simp [payloads]
  | f :: fs, records, cnt, hcnt, hne, hlast => by
    have hfs : ∀ x ∈ fs, x ≠ [] := fun x hx => hne x (List.mem_cons_of_mem _ hx)
    have hlast1 : ∀ init last, fs = init ++ [last] → isSentinel last = true :=
      fun init last h => hlast (f :: init) last (by rw [h]; rfl)
    have hpos : 0 < (f :: fs).countP isSentinel := by
      rcases List.eq_nil_or_concat (f :: fs) with h | ⟨init, last, h⟩
      · exact absurd h (List.cons_ne_nil _ _)
      · rw [List.concat_eq_append] at h
        have hs := hlast init last h
        rw [h, List.countP_append]
        simp [hs]
    have hgo : cnt ≠ (numServers : Int) - 1 := by omega
    cases hf : isSentinel f with
    | true =>
      rw [assemble_cons_sentinel numServers f fs records cnt hgo hf,
        assemble_all numServers fs records (cnt + 1)
          (by rw [List.countP_cons_of_pos _ _ hf] at hcnt; push_cast at hcnt; omega)
          hfs hlast1,
        payloads_cons_sentinel f fs hf]
    | false =>
      rw [assemble_cons_data numServers f fs records cnt hgo (hne f (List.mem_cons_self _ _)) hf,
        assemble_all numServers fs (records ++ [f.drop 1]) cnt
          (by rw [List.countP_cons_of_neg _ _ (by simp [hf])] at hcnt; exact hcnt)
          hfs hlast1,
        payloads_cons_data f fs hf]
      simp

/-! ## Arrival orders -/

theorem framesFrom_restrict (n c : Nat) (hc : c < n) (tagged : List (Nat × Frame)) :
    framesFrom c (tagged.filter (fun t => !(t.1 == n))) = framesFrom c tagged := by
  unfold framesFrom
  rw [List.filter_filter]
  congr 1
  refine List.filter_congr ?_
  intro t _
  by_cases h : t.1 = c
  · have h1 : ¬ t.1 = n := by omega
    have h2 : ¬ c = n := by omega
    simp [h, h2]
  · simp [h]

theorem arrival_perm_connections :
    ∀ (n : Nat) (tagged : List (Nat × Frame)), (∀ t ∈ tagged, t.1 < n) →
      (tagged.map Prod.snd).Perm
        ((List.range n).map (fun c => framesFrom c tagged)).flatten
  | 0, tagged, htag => by
    cases tagged with
    | nil => exact List.Perm.refl _
    | cons t ts => exact absurd (htag t (List.mem_cons_self _ _)) (Nat.not_lt_zero _)
  | n + 1, tagged, htag => by
    have hrest : ∀ t ∈ tagged.filter (fun t => !(t.1 == n)), t.1 < n := by
      intro t ht
      rw [List.mem_filter] at ht
      have h1 := htag t ht.1
      have h2 : ¬ t.1 = n := by simpa using ht.2
      omega
    have ih := arrival_perm_connections n _ hrest
    have hsame : (List.range n).map
          (fun c => framesFrom c (tagged.filter (fun t => !(t.1 == n))))
        = (List.range n).map (fun c => framesFrom c tagged) :=
      List.map_congr_left
        (fun c hc => framesFrom_restrict n c (List.mem_range.1 hc) tagged)
    rw [hsame] at ih
    rw [List.range_succ, List.map_append, List.flatten_append]
    simp only [List.map_cons, List.map_nil, List.flatten_cons, List.flatten_nil,
      List.append_nil]
    have hsplit := (List.filter_append_perm (fun t : Nat × Frame => t.1 == n) tagged).map
      Prod.snd
    rw [List.map_append] at hsplit
    refine hsplit.symm.trans ?_
    refine List.perm_append_comm.trans ?_
    exact ih.append_right _

theorem map_range_eq_map {α β : Type} (l : List α) (g : Nat → β) (h : α → β)
    (hgh : ∀ c a, l[c]? = some a → g c = h a) :
    (List.range l.length).map g = l.map h := by
  refine List.ext_getElem (by simp) ?_
  intro c h1 h2
  have hc : c < l.length := by simpa using h2
  rw [List.getElem_map, List.getElem_map, List.getElem_range]
  exact hgh c _ (List.getElem?_eq_getElem hc)

theorem framesFrom_valid (peers : List Int) (bucket : Int → List Record)
    (hlen : ∀ j ∈ peers, ∀ r ∈ bucket j, r.length = 100) (tagged : List (Nat × Frame))
    (hvalid : ValidArrival (peers.map (fun j => sendBucket (bucket j))) tagged)
    (c : Nat) (j : Int) (hj : peers[c]? = some j) :
    framesFrom c tagged = (bucket j).map dataFrame ++ [sentinelFrame] := by
  have hstream : (peers.map (fun j => sendBucket (bucket j)))[c]? = some (sendBucket (bucket j)) := by
    rw [List.getElem?_map, hj]; rfl
  obtain ⟨chunks, hsz, hflat, hframes⟩ := hvalid.2 c _ hstream
  have hmem : j ∈ peers := List.getElem?_mem hj
  rw [hframes, connReader_delivery chunks hsz [] (by simp)]
  simp only [List.nil_append, hflat]
  exact framesOf_sendBucket _ (hlen j hmem)

theorem arrival_perm_frames (peers : List Int) (bucket : Int → List Record)
    (hlen : ∀ j ∈ peers, ∀ r ∈ bucket j, r.length = 100) (tagged : List (Nat × Frame))
    (hvalid : ValidArrival (peers.map (fun j => sendBucket (bucket j))) tagged) :
    (tagged.map Prod.snd).Perm
      (peers.map (fun j => (bucket j).map dataFrame ++ [sentinelFrame])).flatten := by
  have htag : ∀ t ∈ tagged, t.1 < peers.length := by
    intro t ht; simpa using hvalid.1 t ht
  have h := arrival_perm_connections peers.length tagged htag
  rw [map_range_eq_map peers (fun c => framesFrom c tagged)
    (fun j => (bucket j).map dataFrame ++ [sentinelFrame])
    (fun c j hj => framesFrom_valid peers bucket hlen tagged hvalid c j hj)] at h
  exact h

theorem arrival_last_sentinel (peers : List Int) (bucket : Int → List Record)
    (hlen : ∀ j ∈ peers, ∀ r ∈ bucket j, r.length = 100) (tagged : List (Nat × Frame))
    (hvalid : ValidArrival (peers.map (fun j => sendBucket (bucket j))) tagged)
    (init : List Frame) (last : Frame) (hsplit : tagged.map Prod.snd = init ++ [last]) :
    isSentinel last = true := by
  rcases List.eq_nil_or_concat tagged with h | ⟨tinit, t, h⟩
  · rw [h] at hsplit; simp at hsplit
  · rw [List.concat_eq_append] at h
    have hlast : t.2 = last := by
      rw [h, List.map_append] at hsplit
      have := List.append_inj_right' hsplit rfl
      simpa using this
    have hmem : t ∈ tagged := by rw [h]; simp
    have hc : t.1 < peers.length := by simpa using hvalid.1 t hmem
    have hfrom := framesFrom_valid peers bucket hlen tagged hvalid t.1 _
      (List.getElem?_eq_getElem hc)
    have hfrom1 : framesFrom t.1 tagged = framesFrom t.1 tinit ++ [t.2] := by
      rw [h]; simp [framesFrom, List.filter_append]
    rw [hfrom1] at hfrom
    have := List.append_inj_right' hfrom rfl
    have h2 : t.2 = sentinelFrame := by simpa using this
    rw [← hlast, h2]
    rfl

/-! ## The frames of a complete exchange -/

theorem isSentinel_dataFrame (r : Record) : isSentinel (dataFrame r) = false := by
  simp [isSentinel, dataFrame]

theorem isSentinel_sentinelFrame : isSentinel sentinelFrame = true := by
  simp [isSentinel, sentinelFrame, List.replicate]

theorem payloads_append (a b : List Frame) : payloads (a ++ b) = payloads a ++ payloads b := by
  simp [payloads]

theorem payloads_dataFrames : ∀ bucket : List Record, payloads (bucket.map dataFrame) = bucket
  | [] => rfl
  | r :: rest => by
    rw [List.map_cons, payloads_cons_data _ _ (isSentinel_dataFrame r),
      payloads_dataFrames rest]
    rfl

theorem countP_dataFrames : ∀ bucket : List Record,
    (bucket.map dataFrame).countP isSentinel = 0
  | [] => rfl
  | r :: rest => by
    rw [List.map_cons, List.countP_cons_of_neg _ _ (by simp [isSentinel_dataFrame]),
      countP_dataFrames rest]

theorem countP_exchange (bucket : Int → List Record) : ∀ peers : List Int,
    ((peers.map (fun j => (bucket j).map dataFrame ++ [sentinelFrame])).flatten).countP
      isSentinel = peers.length
  | [] => rfl
  | j :: rest => by
    rw [List.map_cons, List.flatten_cons, List.countP_append, List.countP_append,
      countP_dataFrames, countP_exchange bucket rest,
      List.countP_cons_of_pos _ _ isSentinel_sentinelFrame]
    simp
    omega

theorem payloads_exchange (bucket : Int → List Record) : ∀ peers : List Int,
    payloads ((peers.map (fun j => (bucket j).map dataFrame ++ [sentinelFrame])).flatten)
      = (peers.map bucket).flatten
  | [] => rfl
  | j :: rest => by
    rw [List.map_cons, List.flatten_cons, payloads_append, payloads_append,
      payloads_dataFrames, payloads_exchange bucket rest,
      payloads_cons_sentinel _ _ isSentinel_sentinelFrame]
    simp [payloads]

theorem ne_nil_exchange (bucket : Int → List Record) (peers : List Int) (f : Frame)
    (hf : f ∈ (peers.map (fun j => (bucket j).map dataFrame ++ [sentinelFrame])).flatten) :
    f ≠ [] := by
  rw [List.mem_flatten] at hf
  obtain ⟨l, hl, hfl⟩ := hf
  obtain ⟨j, _, rfl⟩ := List.mem_map.1 hl
  rcases List.mem_append.1 hfl with h | h
  · obtain ⟨r, _, rfl⟩ := List.mem_map.1 h
    simp [dataFrame]
  · have : f = sentinelFrame := by simpa using h
    rw [this]
    simp [sentinelFrame, List.replicate]

theorem length_filter_ne (servers : List Int) (hnd : servers.Nodup) (i : Int)
    (hi : i ∈ servers) :
    (servers.filter (fun j => decide (j ≠ i))).length + 1 = servers.length := by
  induction servers with
  | nil => simp at hi
  | cons s ss ih =>
    rw [List.nodup_cons] at hnd
    by_cases hs : s = i
    · subst hs
      have hall : ss.filter (fun j => decide (j ≠ s)) = ss := by
        rw [List.filter_eq_self]
        intro a ha
        have : a ≠ s := fun h => hnd.1 (h ▸ ha)
        simpa using this
      rw [List.filter_cons_of_neg (by simp), hall]
      rfl
    · have hi1 : i ∈ ss := by
        rcases List.mem_cons.1 hi with h | h
        · exact absurd h.symm hs
        · exact h
      have := ih hnd.2 hi1
      simp only [List.filter_cons, hs, ne_eq, not_false_eq_true, decide_True, if_true,
        List.length_cons]
      simp only [ne_eq] at this
      omega

theorem own_and_peers_perm {α : Type} (G : Int → List α) (i : Int) :
    ∀ servers : List Int, servers.Nodup → i ∈ servers →
      (G i ++ ((servers.filter (fun j => decide (j ≠ i))).map G).flatten).Perm
        (servers.map G).flatten
  | [], _, hi => by simp at hi
  | s :: ss, hnd, hi => by
    rw [List.nodup_cons] at hnd
    by_cases hs : s = i
    · subst hs
      have hall : ss.filter (fun j => decide (j ≠ s)) = ss := by
        rw [List.filter_eq_self]
        intro a ha
        have : a ≠ s := fun h => hnd.1 (h ▸ ha)
        simpa using this
      rw [List.filter_cons_of_neg (by simp), hall]
      exact List.Perm.refl _
    · have hi1 : i ∈ ss := by
        rcases List.mem_cons.1 hi with h | h
        · exact absurd h.symm hs
        · exact h
      have ih := own_and_peers_perm G i ss hnd.2 hi1
      have hkeep : (s :: ss).filter (fun j => decide (j ≠ i))
          = s :: ss.filter (fun j => decide (j ≠ i)) := by
        simp [List.filter_cons, hs]
      rw [hkeep, List.map_cons, List.flatten_cons, List.map_cons, List.flatten_cons]
      refine (List.perm_append_comm_assoc _ _ _).trans ?_
      exact ih.append_left _

theorem ownedBy_flatten (numServers : Nat) (key : Int) (shards : List (List Record)) :
    ownedBy numServers key shards.flatten
      = (shards.map (fun l => ownedBy numServers key l)).flatten := by
  simp [ownedBy, List.filter_flatten]

/-! ## Rearrangements of buckets -/

theorem flatten_map_perm_congr {α β : Type} (f g : α → List β) :
    ∀ l : List α, (∀ a ∈ l, (f a).Perm (g a)) → ((l.map f).flatten).Perm (l.map g).flatten
  | [], _ => List.Perm.refl _
  | a :: l, h => by
    simp only [List.map_cons, List.flatten_cons]
    exact (h a (List.mem_cons_self _ _)).append
      (flatten_map_perm_congr f g l (fun x hx => h x (List.mem_cons_of_mem _ hx)))

/-! ## The claims -/

/-- C2: for `numServers = 2 ^ k` with `k ≤ 8`, the owner the partitioner
computes for a record is the record's first byte shifted right by `8 - k`,
which is the number formed by the top `k` bits of that byte; it lies below
`numServers` and is the same for any two records with the same first byte. -/
theorem owner_is_top_bits (k : Nat) (hk : k ≤ 8) (b : Byte) (rest other : List Byte) :
    ownerID (b :: rest) (2 ^ k) = some ((b.val >>> (8 - k) : Nat) : Int) ∧
      b.val >>> (8 - k) = b.val / 2 ^ (8 - k) ∧
      b.val >>> (8 - k) < 2 ^ k ∧
      ownerID (b :: other) (2 ^ k) = ownerID (b :: rest) (2 ^ k) :=
  ⟨ownerID_cons k hk b rest, shiftRight_eq_div k b, shiftRight_lt_two_pow k hk b,
    (ownerID_cons k hk b other).trans (ownerID_cons k hk b rest).symm⟩

theorem owner_is_top_bits_witness :
    (2 : Nat) ≤ 8 ∧
      ownerID ((0x9C : Byte) :: [1, 2]) (2 ^ 2) = some (((0x9C : Byte).val >>> (8 - 2) : Nat) : Int) ∧
      (0x9C : Byte).val >>> (8 - 2) = (0x9C : Byte).val / 2 ^ (8 - 2) ∧
      (0x9C : Byte).val >>> (8 - 2) < 2 ^ 2 ∧
      ownerID ((0x9C : Byte) :: [3]) (2 ^ 2) = ownerID ((0x9C : Byte) :: [1, 2]) (2 ^ 2) :=
  ⟨by decide, owner_is_top_bits 2 (by decide) 0x9C [1, 2] [3]⟩

/-- C3: when a connection delivers a byte stream in reads of at most 101
bytes each and is then closed, the reader pushes exactly
`floor (length / 101)` frames, frame `i` being bytes `101 * i` to
`101 * i + 100` of the stream, in stream order; the bytes left over are
dropped and the reader returns normally. -/
theorem reader_reassembles_frames (chunks : List (List Byte))
    (hsz : ∀ c ∈ chunks, c.length ≤ 101) :
    (connReader (delivery chunks) []).2 = ReaderExit.returned ∧
      (connReader (delivery chunks) []).1.length = chunks.flatten.length / 101 ∧
      (∀ i, i < chunks.flatten.length / 101 →
        (connReader (delivery chunks) []).1[i]?
          = some ((chunks.flatten.drop (101 * i)).take 101)) ∧
      (connReader (delivery chunks) []).1 = framesOf chunks.flatten := by
  have h := connReader_delivery chunks hsz [] (by simp)
  rw [List.nil_append] at h
  rw [h]
  exact ⟨rfl, length_framesOf _, fun i hi => getElem?_framesOf _ i hi, rfl⟩

theorem reader_reassembles_frames_witness :
    (∀ c ∈ [List.replicate 60 (5 : Byte), List.replicate 101 6, [], List.replicate 45 7],
        c.length ≤ 101) ∧
      (connReader (delivery
        [List.replicate 60 (5 : Byte), List.replicate 101 6, [], List.replicate 45 7]) []).1
        = framesOf
          [List.replicate 60 (5 : Byte), List.replicate 101 6, [], List.replicate 45 7].flatten :=
  ⟨by simp, (reader_reassembles_frames _ (by simp)).2.2.2⟩

/-- C4: the data frame the dialer builds from a 100-byte record is 101 bytes
long and the assembly loop decodes it back to exactly that record, leaving
the sentinel counter alone; the frame `genEnd(101, 1)` only increments the
sentinel counter and adds no record. -/
theorem frame_round_trip (r : Record) (hr : r.length = 100) (numServers : Nat)
    (records : List Record) (cnt : Int) (rest : List Frame)
    (hgo : cnt ≠ (numServers : Int) - 1) :
    (dataFrame r).length = 101 ∧
      assembleStep records cnt (dataFrame r) = some (records ++ [r], cnt) ∧
      assemble numServers (dataFrame r :: rest) records cnt
        = assemble numServers rest (records ++ [r]) cnt ∧
      assembleStep records cnt (genEnd recordLength 1) = some (records, cnt + 1) ∧
      assemble numServers (genEnd recordLength 1 :: rest) records cnt
        = assemble numServers rest records (cnt + 1) := by
  refine ⟨by simp [dataFrame, hr], by simp [assembleStep, dataFrame], ?_, ?_, ?_⟩
  · rw [assemble_cons_data numServers _ rest records cnt hgo (by simp [dataFrame])
      (isSentinel_dataFrame r)]
    rfl
  · rw [genEnd_sentinel]
    simp [assembleStep, sentinelFrame, List.replicate]
  · rw [genEnd_sentinel,
      assemble_cons_sentinel numServers _ rest records cnt hgo isSentinel_sentinelFrame]

theorem frame_round_trip_witness :
    (sampleRecord 0x01).length = 100 ∧ (0 : Int) ≠ ((2 : Nat) : Int) - 1 ∧
      assembleStep [] 0 (dataFrame (sampleRecord 0x01)) = some ([] ++ [sampleRecord 0x01], 0) ∧
      assembleStep [] 0 (genEnd recordLength 1) = some ([], 0 + 1) :=
  ⟨by simp [sampleRecord], by decide,
    (frame_round_trip (sampleRecord 0x01) (by simp [sampleRecord]) 2 [] 0 [] (by decide)).2.1,
    (frame_round_trip (sampleRecord 0x01) (by simp [sampleRecord]) 2 [] 0 [] (by decide)).2.2.2.1⟩

/-- C5: with at least two servers, a local bucket `L`, and an arrival order
of 101-byte frames holding at least `numServers - 1` frames whose first byte
is 1, the assembly loop stops right after the `(numServers - 1)`-th such
frame; its result is `L` followed by the last 100 bytes of every other frame
that arrived before it, in arrival order, and the frames after it stay
unread. -/
theorem assembly_stops_at_last_sentinel (numServers : Nat) (hn : 2 ≤ numServers)
    (L : List Record) (frames : List Frame) (h101 : ∀ f ∈ frames, f.length = 101)
    (hcount : numServers - 1 ≤ frames.countP isSentinel) :
    ∃ pre s post, frames = pre ++ s :: post ∧ isSentinel s = true ∧
      pre.countP isSentinel = numServers - 2 ∧
      assemble numServers frames L 0 = Assembly.done (L ++ payloads pre) post := by
  refine assemble_run numServers frames L 0 (numServers - 2) (by omega) ?_ (by omega)
  intro f hf h
  have := h101 f hf
  rw [h] at this
  simp at this

theorem assembly_stops_at_last_sentinel_witness :
    (2 ≤ 3) ∧
      (3 - 1 ≤ [dataFrame (sampleRecord 5), sentinelFrame, dataFrame (sampleRecord 6),
        sentinelFrame, dataFrame (sampleRecord 8)].countP isSentinel) ∧
      ∃ pre s post,
        [dataFrame (sampleRecord 5), sentinelFrame, dataFrame (sampleRecord 6),
          sentinelFrame, dataFrame (sampleRecord 8)] = pre ++ s :: post ∧
        isSentinel s = true ∧ pre.countP isSentinel = 3 - 2 ∧
        assemble 3 [dataFrame (sampleRecord 5), sentinelFrame, dataFrame (sampleRecord 6),
          sentinelFrame, dataFrame (sampleRecord 8)] [sampleRecord 9] 0
          = Assembly.done ([sampleRecord 9] ++ payloads pre) post :=
  ⟨by decide, by decide,
    assembly_stops_at_last_sentinel 3 (by decide) [sampleRecord 9] _
      (by simp [dataFrame, sampleRecord, sentinelFrame]) (by decide)⟩

/-- C6: for a result set whose records are at least 10 bytes long, what
`sortWrite` writes is the concatenation, with nothing in between, of a
permutation of the result set in which the first 10 bytes of every record
are byte-lexicographically less than or equal to the first 10 bytes of every
later record, in particular of the record right after it. -/
theorem sortWrite_sorted_permutation (result : List Record)
    (hlen : ∀ r ∈ result, 10 ≤ r.length) :
    ∃ p : List Record, p.Perm result ∧ sortWrite result = p.flatten ∧
      (∀ r ∈ p, (r.take 10).length = 10) ∧
      p.Pairwise (fun a b => bytesLE (a.take 10) (b.take 10) = true) ∧
      p.Chain' (fun a b => bytesLE (a.take 10) (b.take 10) = true) := by
  refine ⟨sortSlice keyLess result, sortSlice_perm keyLess result, rfl, ?_,
    sortSlice_keyLE result, List.Pairwise.chain' (sortSlice_keyLE result)⟩
  intro r hr
  have := hlen r ((sortSlice_perm keyLess result).subset hr)
  rw [List.length_take]
  omega

theorem sortWrite_sorted_permutation_witness :
    (∀ r ∈ [sampleRecord 0x10, sampleRecord 0x05, sampleRecord 0x90, sampleRecord 0x05],
        10 ≤ r.length) ∧
      ∃ p : List Record,
        p.Perm [sampleRecord 0x10, sampleRecord 0x05, sampleRecord 0x90, sampleRecord 0x05] ∧
        sortWrite [sampleRecord 0x10, sampleRecord 0x05, sampleRecord 0x90, sampleRecord 0x05]
          = p.flatten ∧
        (∀ r ∈ p, (r.take 10).length = 10) ∧
        p.Pairwise (fun a b => bytesLE (a.take 10) (b.take 10) = true) ∧
        p.Chain' (fun a b => bytesLE (a.take 10) (b.take 10) = true) :=
  ⟨by simp [sampleRecord],
    sortWrite_sorted_permutation _ (by simp [sampleRecord])⟩

/-- C7: for a peer of the topology other than this node, whose bucket holds
100-byte records `r1, ..., rk` (possibly none), the dialer opens a
connection to the peer and writes on it the frames `0 :: r1`, ...,
`0 :: rk` in the order of the bucket, then one frame of 101 bytes all equal
to 1, and nothing else: `101 * (k + 1)` bytes.  It opens no connection to
itself. -/
theorem dial_writes_bucket_then_sentinel (serverId : Int) (servers : List Int)
    (distribution : Distribution) (peer : Int) (hpeer : peer ∈ servers)
    (hself : peer ≠ serverId) (hlen : ∀ r ∈ distribution peer, r.length = 100) :
    (peer, ((distribution peer).map (fun r => (0 : Byte) :: r)).flatten
        ++ List.replicate 101 (1 : Byte)) ∈ dial serverId servers distribution ∧
      (∀ conn ∈ dial serverId servers distribution, conn.1 = peer →
        conn.2 = ((distribution peer).map (fun r => (0 : Byte) :: r)).flatten
          ++ List.replicate 101 (1 : Byte)) ∧
      (((distribution peer).map (fun r => (0 : Byte) :: r)).flatten
        ++ List.replicate 101 (1 : Byte)).length = 101 * ((distribution peer).length + 1) ∧
      genEnd recordLength 1 = List.replicate 101 (1 : Byte) ∧
      (∀ conn ∈ dial serverId servers distribution, conn.1 ≠ serverId) := by
  have hsend := sendBucket_eq (distribution peer)
  refine ⟨?_, ?_, ?_, genEnd_sentinel, ?_⟩
  · rw [mem_dial]
    exact ⟨hpeer, hself, hsend.symm⟩
  · intro conn hconn hp
    rw [((mem_dial serverId distribution conn servers).1 hconn).2.2, hp]
    exact hsend
  · have := length_flatten_dataFrame (distribution peer) hlen
    unfold dataFrame at this
    rw [List.length_append, this, List.length_replicate]
    omega
  · intro conn hconn
    exact ((mem_dial serverId distribution conn servers).1 hconn).2.1

theorem dial_writes_bucket_then_sentinel_witness :
    ((1 : Int) ∈ [0, 1]) ∧ ((1 : Int) ≠ 0) ∧
      (1, (([sampleRecord 0x90, sampleRecord 0x85]).map (fun r => (0 : Byte) :: r)).flatten
        ++ List.replicate 101 (1 : Byte))
        ∈ dial 0 [0, 1]
          (fun key => if key = 1 then [sampleRecord 0x90, sampleRecord 0x85] else []) :=
  ⟨by decide, by decide,
    (dial_writes_bucket_then_sentinel 0 [0, 1]
      (fun key => if key = 1 then [sampleRecord 0x90, sampleRecord 0x85] else []) 1
      (by decide) (by decide) (by simp [sampleRecord])).1⟩

/-- C9: for `2 ^ k` servers (`k ≤ 8`) whose ids are exactly
`0 .. 2 ^ k - 1`, each listed once, and non-empty input records, the
partitioning phase ends with a map whose bucket for a key is the input
records owned by that key, in input order; every record is in the bucket of
exactly one server, and the buckets together are a rearrangement of the
input. -/
theorem partition_map_buckets (k : Nat) (hk : k ≤ 8) (servers : List Int)
    (hperm : servers.Perm (denseIds (2 ^ k))) (input : List Record)
    (hne : ∀ r ∈ input, r ≠ []) :
    ∃ d : Distribution, distribute servers input = some d ∧
      (∀ key, d key = input.filter (fun r => ownerID r servers.length == some key)) ∧
      (∀ key, (d key).Sublist input) ∧
      (∀ r ∈ input, ∃! key, key ∈ servers ∧ r ∈ d key) ∧
      ((servers.map d).flatten).Perm input := by
  have hn := perm_dense_length servers _ hperm
  refine ⟨_, distribute_dense k hk servers hperm input hne, ?_, ?_, ?_, ?_⟩
  · intro key; rw [hn]; rfl
  · intro key; exact List.filter_sublist _
  · intro r hr
    obtain ⟨ID, hmem, hID⟩ := owner_mem_servers k hk servers hperm r (hne r hr)
    refine ⟨ID, ⟨hmem, (mem_ownedBy _ _ _ _).2 ⟨hr, hID⟩⟩, ?_⟩
    intro key hkey
    have := ((mem_ownedBy _ _ _ _).1 hkey.2).2
    rw [hID] at this
    exact (Option.some.inj this).symm
  · exact buckets_perm (2 ^ k) servers (perm_dense_nodup servers _ hperm) input
      (fun r hr => owner_mem_servers k hk servers hperm r (hne r hr))

theorem partition_map_buckets_witness :
    ([1, 0] : List Int).Perm (denseIds (2 ^ 1)) ∧
      (∀ r ∈ [sampleRecord 0x90, sampleRecord 0x05, sampleRecord 0xA0], r ≠ []) ∧
      ∃ d : Distribution,
        distribute [1, 0] [sampleRecord 0x90, sampleRecord 0x05, sampleRecord 0xA0] = some d ∧
        (∀ key, d key = [sampleRecord 0x90, sampleRecord 0x05, sampleRecord 0xA0].filter
          (fun r => ownerID r ([1, 0] : List Int).length == some key)) ∧
        (∀ key, (d key).Sublist [sampleRecord 0x90, sampleRecord 0x05, sampleRecord 0xA0]) ∧
        (∀ r ∈ [sampleRecord 0x90, sampleRecord 0x05, sampleRecord 0xA0],
          ∃! key, key ∈ ([1, 0] : List Int) ∧ r ∈ d key) ∧
        ((([1, 0] : List Int).map d).flatten).Perm
          [sampleRecord 0x90, sampleRecord 0x05, sampleRecord 0xA0] :=
  ⟨List.Perm.swap _ _ _, by simp [sampleRecord],
    partition_map_buckets 1 (by decide) [1, 0] (List.Perm.swap _ _ _) _
      (by simp [sampleRecord])⟩

theorem ownedBy_single (records : List Record) (hne : ∀ r ∈ records, r ≠ []) :
    ownedBy (2 ^ 0) 0 records = records := by
  unfold ownedBy
  rw [List.filter_eq_self]
  intro r hr
  cases r with
  | nil => exact absurd rfl (hne _ hr)
  | cons b rest =>
    have h1 := shiftRight_lt_two_pow 0 (by decide) b
    have h0 : b.val >>> (8 - 0) = 0 := by
      rw [pow_zero] at h1; omega
    rw [ownerID_cons 0 (by decide) b rest, h0]
    rfl

/-- C8: for an input file made of 100-byte records (possibly none), `main`
on a one-server topology takes the single-node path, whose output is the
concatenation of a key-sorted rearrangement of the records of the file, and
that output is equal, byte for byte, to what the distributed path produces
with the one-server topology `[0]` and node id 0, whatever arrives on the
channel. -/
theorem single_node_refines_distributed (records : List Record)
    (hlen : ∀ r ∈ records, r.length = 100) (serverId server : Int)
    (arrivals arrivals1 : List Frame) :
    main serverId [server] records.flatten arrivals = singlePath records.flatten ∧
      singlePath records.flatten = distributedPath 0 [0] records.flatten arrivals1 ∧
      ∃ p : List Record, p.Perm records ∧ p.Pairwise keyLE ∧
        singlePath records.flatten = Outcome.wrote p.flatten := by
  have hread := readRecords_flatten records hlen
  refine ⟨by simp [main], ?_, sortSlice keyLess records, sortSlice_perm _ _,
    sortSlice_keyLE _, by simp [singlePath, hread, sortWrite]⟩
  unfold singlePath distributedPath
  rw [hread]
  by_cases hnil : records = []
  · subst hnil
    rfl
  · have hne := ne_nil_of_length_100 records hlen
    have hdist := distribute_dense 0 (by decide) [0] (List.Perm.refl _) records hne
    rw [if_neg (flatten_length_ne_zero records hlen hnil), hdist]
    simp only
    rw [ownedBy_single records hne, assemble_at_target _ _ _ _ (by simp)]

theorem single_node_refines_distributed_witness :
    (∀ r ∈ [sampleRecord 0x90, sampleRecord 0x05], r.length = 100) ∧
      singlePath [sampleRecord 0x90, sampleRecord 0x05].flatten
        = distributedPath 0 [0] [sampleRecord 0x90, sampleRecord 0x05].flatten
            [sentinelFrame] :=
  ⟨by simp [sampleRecord],
    (single_node_refines_distributed [sampleRecord 0x90, sampleRecord 0x05]
      (by simp [sampleRecord]) 0 0 [] [sentinelFrame]).2.1⟩

/-- C10: for `2 ^ k` servers (`k ≤ 8`) and non-empty records `a` and `b`,
both have an owner, a key of `a` less than or equal to the key of `b` gives
an owner of `a` less than or equal to the owner of `b`, and an owner of `a`
below the owner of `b` gives a key of `a` strictly below the key of `b`;
hence the sorted buckets of any list of records, concatenated in node-id
order, are sorted by key. -/
theorem owner_monotone_in_key (k : Nat) (hk : k ≤ 8) (a b : Record) (ha : a ≠ [])
    (hb : b ≠ []) (records : List Record) :
    (∃ oa ob, ownerID a (2 ^ k) = some oa ∧ ownerID b (2 ^ k) = some ob ∧
        (bytesLE (a.take 10) (b.take 10) = true → oa ≤ ob) ∧
        (oa < ob → bytesLess (a.take 10) (b.take 10) = true ∧
          bytesLE (b.take 10) (a.take 10) = false)) ∧
      (((denseIds (2 ^ k)).map
        (fun i => sortSlice keyLess (ownedBy (2 ^ k) i records))).flatten).Pairwise
          (fun x y => bytesLE (x.take 10) (y.take 10) = true) := by
  obtain ⟨oa, hoa⟩ := ownerID_total k hk a ha
  obtain ⟨ob, hob⟩ := ownerID_total k hk b hb
  refine ⟨⟨oa, ob, hoa, hob, ?_, ?_⟩, sorted_buckets_in_order k hk records⟩
  · intro hle
    by_contra hcon
    have hlt : ob < oa := not_le.1 hcon
    have hless := ownerID_lt_keyLess k hk b a ob oa hob hoa hlt
    have := (keyLE_iff a b).1 hle
    rw [hless] at this
    exact Bool.noConfusion this
  · intro hlt
    have hless := ownerID_lt_keyLess k hk a b oa ob hoa hob hlt
    refine ⟨hless, ?_⟩
    rw [bytesLE_eq_not_bytesLess]
    have : bytesLess (a.take 10) (b.take 10) = true := hless
    rw [this]
    rfl

theorem owner_monotone_in_key_witness :
    (1 ≤ 8) ∧ sampleRecord 0x05 ≠ [] ∧ sampleRecord 0x90 ≠ [] ∧
      (((denseIds (2 ^ 1)).map
        (fun i => sortSlice keyLess
          (ownedBy (2 ^ 1) i [sampleRecord 0x90, sampleRecord 0x05, sampleRecord 0x10]))).flatten
        ).Pairwise (fun x y => bytesLE (x.take 10) (y.take 10) = true) :=
  ⟨by decide, by simp [sampleRecord], by simp [sampleRecord],
    (owner_monotone_in_key 1 (by decide) (sampleRecord 0x05) (sampleRecord 0x90)
      (by simp [sampleRecord]) (by simp [sampleRecord])
      [sampleRecord 0x90, sampleRecord 0x05, sampleRecord 0x10]).2⟩

/-! ## Streams that stop early -/

theorem length_of_mem_framesOf (s : List Byte) (f : Frame) (hf : f ∈ framesOf s) :
    f.length = 101 := by
  unfold framesOf at hf
  obtain ⟨i, hi, rfl⟩ := List.mem_map.1 hf
  have hi1 : i < s.length / 101 := List.mem_range.1 hi
  have hle : 101 * (i + 1) ≤ s.length := by
    have := Nat.div_mul_le_self s.length 101
    have h2 : (i + 1) * 101 ≤ s.length / 101 * 101 := Nat.mul_le_mul_right 101 hi1
    omega
  rw [List.length_take, List.length_drop]
  omega

theorem framesOf_take_fuel :
    ∀ (fuel : Nat) (s : List Byte) (n : Nat), s.length ≤ fuel →
      framesOf (s.take n) = (framesOf s).take (n / 101)
  | 0, s, n, h => by
    have hs : s = [] := List.length_eq_zero.1 (by omega)
    subst hs
    simp [framesOf]
  | fuel + 1, s, n, h => by
    by_cases hn : n < 101
    · rw [framesOf_short (s.take n) (by rw [List.length_take]; omega), Nat.div_eq_of_lt hn]
      rfl
    · by_cases hs : s.length < 101
      · rw [List.take_of_length_le (by omega), framesOf_short s hs, List.take_nil]
      · have hlong : 101 ≤ (s.take n).length := by rw [List.length_take]; omega
        have hdiv : n / 101 = (n - 101) / 101 + 1 := by omega
        rw [framesOf_step (s.take n) hlong, framesOf_step s (by omega), hdiv, List.take_succ_cons,
          List.take_take, List.drop_take,
          framesOf_take_fuel fuel (s.drop 101) (n - 101) (by rw [List.length_drop]; omega)]
        congr 2
        omega

theorem framesOf_take (s : List Byte) (n : Nat) :
    framesOf (s.take n) = (framesOf s).take (n / 101) :=
  framesOf_take_fuel s.length s n (Nat.le_refl _)

theorem length_sendBucket (bucket : List Record) (hlen : ∀ r ∈ bucket, r.length = 100) :
    (sendBucket bucket).length = 101 * (bucket.length + 1) := by
  rw [sendBucket_eq, List.length_append, length_flatten_dataFrame bucket hlen]
  simp [sentinelFrame]
  omega

theorem countP_framesOf_sendBucket (bucket : List Record)
    (hlen : ∀ r ∈ bucket, r.length = 100) :
    (framesOf (sendBucket bucket)).countP isSentinel = 1 := by
  rw [framesOf_sendBucket bucket hlen, List.countP_append, countP_dataFrames,
    List.countP_cons_of_pos _ _ isSentinel_sentinelFrame]
  rfl

theorem countP_framesOf_cut (bucket : List Record) (hlen : ∀ r ∈ bucket, r.length = 100)
    (n : Nat) (hcut : (sendBucket bucket).take n ≠ sendBucket bucket) :
    (framesOf ((sendBucket bucket).take n)).countP isSentinel = 0 := by
  have hn : n < 101 * (bucket.length + 1) := by
    by_contra hge
    apply hcut
    exact List.take_of_length_le (by rw [length_sendBucket bucket hlen]; omega)
  have hq : n / 101 ≤ (bucket.map dataFrame).length := by
    rw [List.length_map]
    have : n / 101 < bucket.length + 1 := (Nat.div_lt_iff_lt_mul (by decide)).2 (by omega)
    omega
  rw [framesOf_take, framesOf_sendBucket bucket hlen, List.take_append_of_le_length hq]
  have := (List.take_sublist (n / 101) (bucket.map dataFrame)).countP_le isSentinel
  rw [countP_dataFrames] at this
  omega

theorem countP_deliver_le (bucket : List Record) (hlen : ∀ r ∈ bucket, r.length = 100)
    (sent : Sent) (t : List Byte) (ht : sent.deliver (sendBucket bucket) = some t) :
    (framesOf t).countP isSentinel ≤ 1 ∧
      (t ≠ sendBucket bucket → (framesOf t).countP isSentinel = 0) := by
  cases sent with
  | unopened => simp [Sent.deliver] at ht
  | whole =>
    have : t = sendBucket bucket := by simpa [Sent.deliver] using ht.symm
    subst this
    exact ⟨by rw [countP_framesOf_sendBucket bucket hlen], fun h => absurd rfl h⟩
  | cut n =>
    have : t = (sendBucket bucket).take n := by simpa [Sent.deliver] using ht.symm
    subst this
    by_cases hfull : (sendBucket bucket).take n = sendBucket bucket
    · rw [hfull]
      exact ⟨by rw [countP_framesOf_sendBucket bucket hlen], fun h => absurd rfl h⟩
    · have := countP_framesOf_cut bucket hlen n hfull
      exact ⟨by omega, fun _ => this⟩

theorem countP_streams (g full : Int → Option (List Byte)) :
    ∀ peers : List Int,
      (∀ j ∈ peers, ∀ t, g j = some t →
        (framesOf t).countP isSentinel ≤ 1 ∧
          (some t ≠ full j → (framesOf t).countP isSentinel = 0)) →
      (((peers.filterMap g).map framesOf).flatten).countP isSentinel ≤ peers.length ∧
        ((∃ j ∈ peers, g j ≠ full j) →
          (((peers.filterMap g).map framesOf).flatten).countP isSentinel < peers.length)
  | [], _ => ⟨by simp, by simp⟩
  | j :: rest, H => by
    have ih := countP_streams g full rest (fun x hx => H x (List.mem_cons_of_mem _ hx))
    cases hg : g j with
    | none =>
      rw [List.filterMap_cons_none hg]
      refine ⟨by simp only [List.length_cons]; omega, fun _ => ?_⟩
      simp only [List.length_cons]; omega
    | some t =>
      have hj := H j (List.mem_cons_self _ _) t hg
      rw [List.filterMap_cons_some hg, List.map_cons, List.flatten_cons, List.countP_append]
      refine ⟨by simp only [List.length_cons]; omega, ?_⟩
      rintro ⟨x, hx, hbad⟩
      simp only [List.length_cons]
      rcases List.mem_cons.1 hx with hxj | hxr
      · subst hxj
        rw [hg] at hbad
        have := hj.2 hbad
        omega
      · have := ih.2 ⟨x, hxr, hbad⟩
        omega

theorem filterMap_eq_map {α β : Type} (g : α → Option β) (f : α → β) :
    ∀ l : List α, (∀ a ∈ l, g a = some (f a)) → l.filterMap g = l.map f
  | [], _ => rfl
  | a :: l, h => by
    rw [List.filterMap_cons_some (h a (List.mem_cons_self _ _)), List.map_cons,
      filterMap_eq_map g f l (fun x hx => h x (List.mem_cons_of_mem _ hx))]

theorem assemble_blocked (numServers : Nat) :
    ∀ (frames : List Frame) (records : List Record) (cnt : Int),
      cnt + (frames.countP isSentinel : Int) < (numServers : Int) - 1 →
      (∀ f ∈ frames, f ≠ []) →
      assemble numServers frames records cnt = Assembly.blocked
  | [], records, cnt, hcnt, _ => by
    have : cnt ≠ (numServers : Int) - 1 := by simp at hcnt; omega
    simp [assemble, this]
  | f :: fs, records, cnt, hcnt, hne => by
    have hfs : ∀ x ∈ fs, x ≠ [] := fun x hx => hne x (List.mem_cons_of_mem _ hx)
    have hgo : cnt ≠ (numServers : Int) - 1 := by
      have : (0 : Int) ≤ ((f :: fs).countP isSentinel : Int) := Int.ofNat_nonneg _
      omega
    cases hf : isSentinel f with
    | true =>
      rw [assemble_cons_sentinel numServers f fs records cnt hgo hf]
      exact assemble_blocked numServers fs records (cnt + 1)
        (by rw [List.countP_cons_of_pos _ _ hf] at hcnt; push_cast at hcnt; omega) hfs
    | false =>
      rw [assemble_cons_data numServers f fs records cnt hgo (hne f (List.mem_cons_self _ _)) hf]
      exact assemble_blocked numServers fs (records ++ [f.drop 1]) cnt
        (by rw [List.countP_cons_of_neg _ _ (by simp [hf])] at hcnt; exact hcnt) hfs

theorem framesFrom_of_valid (streams : List (List Byte)) (tagged : List (Nat × Frame))
    (hvalid : ValidArrival streams tagged) (c : Nat) (stream : List Byte)
    (hc : streams[c]? = some stream) : framesFrom c tagged = framesOf stream := by
  obtain ⟨chunks, hsz, hflat, hframes⟩ := hvalid.2 c stream hc
  rw [hframes, connReader_delivery chunks hsz [] (by simp)]
  simp only [List.nil_append, hflat]

theorem arrival_perm_streams (streams : List (List Byte)) (tagged : List (Nat × Frame))
    (hvalid : ValidArrival streams tagged) :
    (tagged.map Prod.snd).Perm (streams.map framesOf).flatten := by
  have h := arrival_perm_connections streams.length tagged hvalid.1
  rw [map_range_eq_map streams (fun c => framesFrom c tagged) framesOf
    (fun c stream hc => framesFrom_of_valid streams tagged hvalid c stream hc)] at h
  exact h

/-! ## What reaches a node of a dense cluster -/

theorem deliver_filter (p : Int → Sent) (i : Int) :
    ∀ l : List (Int × List Byte),
      ((l.filterMap (fun conn =>
          ((p conn.1).deliver conn.2).map (fun bytes => (conn.1, bytes)))).filter
        (fun conn => conn.1 == i)).map Prod.snd
        = ((l.filter (fun conn => conn.1 == i)).map Prod.snd).filterMap
            (fun stream => (p i).deliver stream)
  | [] => rfl
  | conn :: l => by
    have ih := deliver_filter p i l
    by_cases hi : conn.1 = i
    · cases hd : (p conn.1).deliver conn.2 with
      | none =>
        have hd1 : (p i).deliver conn.2 = none := by rw [← hi]; exact hd
        simp only [List.filterMap_cons, List.filter_cons, hd, hi, hd1, Option.map_none',
          beq_self_eq_true, if_true, List.map_cons]
        simpa [hi] using ih
      | some t =>
        have hd1 : (p i).deliver conn.2 = some t := by rw [← hi]; exact hd
        simp only [List.filterMap_cons, List.filter_cons, hd, hi, hd1, Option.map_some',
          beq_self_eq_true, if_true, List.map_cons]
        simpa [hi] using ih
    · have hb : (conn.1 == i) = false := by simpa using hi
      cases hd : (p conn.1).deliver conn.2 with
      | none =>
        simp only [List.filterMap_cons, List.filter_cons, hd, hb, Option.map_none']
        simpa using ih
      | some t =>
        simp only [List.filterMap_cons, List.filter_cons, hd, hb, Option.map_some']
        simpa using ih

theorem flatten_map_toList {α β : Type} (p : α → Prop) [DecidablePred p] (g : α → Option β) :
    ∀ l : List α, (l.map (fun a => if p a then (g a).toList else [])).flatten
      = (l.filter (fun a => decide (p a))).filterMap g
  | [] => rfl
  | a :: l => by
    have ih := flatten_map_toList p g l
    by_cases h : p a
    · rw [List.map_cons, List.flatten_cons, if_pos h, ih,
        List.filter_cons_of_pos (by simpa using h)]
      cases hg : g a with
      | none => rw [List.filterMap_cons_none hg]; rfl
      | some b => rw [List.filterMap_cons_some hg]; rfl
    · rw [List.map_cons, List.flatten_cons, if_neg h, ih,
        List.filter_cons_of_neg (by simpa using h)]
      rfl

theorem outbound_dense (k : Nat) (hk1 : 1 ≤ k) (hk8 : k ≤ 8) (servers : List Int)
    (hperm : servers.Perm (denseIds (2 ^ k))) (j : Int) (records : List Record)
    (hlen : ∀ r ∈ records, r.length = 100) (hne : records ≠ []) (progress : Int → Sent) :
    outbound j servers records.flatten progress
      = (dial j servers (fun key => ownedBy (2 ^ k) key records)).filterMap
          (fun conn => ((progress conn.1).deliver conn.2).map (fun bytes => (conn.1, bytes))) := by
  have hn := perm_dense_length servers _ hperm
  have h2 := two_le_two_pow k hk1
  unfold outbound
  rw [if_neg (by omega), if_neg (flatten_length_ne_zero records hlen hne),
    readRecords_flatten records hlen,
    distribute_dense k hk8 servers hperm records (ne_nil_of_length_100 records hlen)]

theorem inbound_dense (k : Nat) (hk1 : 1 ≤ k) (hk8 : k ≤ 8) (servers : List Int)
    (hperm : servers.Perm (denseIds (2 ^ k))) (input : Int → List Record)
    (hlen : ∀ j ∈ servers, ∀ r ∈ input j, r.length = 100)
    (hne : ∀ j ∈ servers, input j ≠ []) (i : Int) (hi : i ∈ servers)
    (progress : Int → Int → Sent) :
    inbound i servers (fun j => (input j).flatten) progress
      = (servers.filter (fun j => decide (j ≠ i))).filterMap
          (fun j => (progress j i).deliver (sendBucket (ownedBy (2 ^ k) i (input j)))) := by
  unfold inbound
  rw [← flatten_map_toList (fun j => j ≠ i)]
  congr 1
  refine List.map_congr_left ?_
  intro j hj
  rw [outbound_dense k hk1 hk8 servers hperm j (input j) (hlen j hj) (hne j hj),
    deliver_filter, dial_filter j i _ servers (perm_dense_nodup servers _ hperm)]
  by_cases hji : j = i
  · subst hji; simp
  · have hij : i ≠ j := fun h => hji h.symm
    rw [if_pos ⟨hi, hij⟩, if_pos hji]
    cases hd : (progress j i).deliver (sendBucket (ownedBy (2 ^ k) i (input j))) with
    | none => rw [List.filterMap_cons_none hd]; rfl
    | some t => rw [List.filterMap_cons_some hd]; rfl

theorem inbound_of_empty (servers : List Int) (hlen : servers.length ≠ 1)
    (shards : Int → List Byte) (hempty : ∀ j ∈ servers, shards j = []) (i : Int)
    (progress : Int → Int → Sent) : inbound i servers shards progress = [] := by
  unfold inbound
  rw [List.flatten_eq_nil_iff]
  intro l hl
  obtain ⟨j, hj, rfl⟩ := List.mem_map.1 hl
  simp [outbound, hlen, hempty j hj]

/-! ## One node of a dense cluster in which no shard is empty -/

theorem node_complete (k : Nat) (hk1 : 1 ≤ k) (hk8 : k ≤ 8) (servers : List Int)
    (hperm : servers.Perm (denseIds (2 ^ k))) (input : Int → List Record)
    (hlen : ∀ j ∈ servers, ∀ r ∈ input j, r.length = 100)
    (hne : ∀ j ∈ servers, input j ≠ []) (i : Int) (hi : i ∈ servers)
    (tagged : List (Nat × Frame))
    (hvalid : ValidArrival
      ((servers.filter (fun j => decide (j ≠ i))).map
        (fun j => sendBucket (ownedBy (2 ^ k) i (input j)))) tagged) :
    main i servers (input i).flatten (tagged.map Prod.snd)
        = Outcome.wrote
            (sortWrite (ownedBy (2 ^ k) i (input i) ++ payloads (tagged.map Prod.snd))) ∧
      (ownedBy (2 ^ k) i (input i) ++ payloads (tagged.map Prod.snd)).Perm
        (ownedBy (2 ^ k) i (servers.map input).flatten) := by
  have hnd := perm_dense_nodup servers _ hperm
  have hn := perm_dense_length servers _ hperm
  have h2 := two_le_two_pow k hk1
  have hlenB : ∀ j ∈ servers.filter (fun j => decide (j ≠ i)),
      ∀ r ∈ ownedBy (2 ^ k) i (input j), r.length = 100 := by
    intro j hj r hr
    exact hlen j (List.mem_filter.1 hj).1 r ((mem_ownedBy _ _ _ _).1 hr).1
  have hframes := arrival_perm_frames _ (fun j => ownedBy (2 ^ k) i (input j)) hlenB tagged hvalid
  have hlast := arrival_last_sentinel _ (fun j => ownedBy (2 ^ k) i (input j)) hlenB tagged hvalid
  have hcount : (tagged.map Prod.snd).countP isSentinel + 1 = servers.length := by
    rw [hframes.countP_eq, countP_exchange]
    exact length_filter_ne servers hnd i hi
  have hnonempty : ∀ f ∈ tagged.map Prod.snd, f ≠ [] :=
    fun f hf => ne_nil_exchange _ _ f (hframes.mem_iff.1 hf)
  have hpay : (payloads (tagged.map Prod.snd)).Perm
      ((servers.filter (fun j => decide (j ≠ i))).map
        (fun j => ownedBy (2 ^ k) i (input j))).flatten := by
    have h := (hframes.filter (fun f => !isSentinel f)).map (List.drop 1)
    have e := payloads_exchange (fun j => ownedBy (2 ^ k) i (input j))
      (servers.filter (fun j => decide (j ≠ i)))
    unfold payloads at e ⊢
    rw [e] at h
    exact h
  constructor
  · unfold main distributedPath
    rw [if_neg (by omega), if_neg (flatten_length_ne_zero _ (hlen i hi) (hne i hi)),
      readRecords_flatten _ (hlen i hi),
      distribute_dense k hk8 servers hperm _ (ne_nil_of_length_100 _ (hlen i hi))]
    simp only
    rw [assemble_all servers.length (tagged.map Prod.snd) _ 0
      (by push_cast [← hcount]; omega) hnonempty hlast]
  · rw [ownedBy_flatten, List.map_map]
    refine (hpay.append_left _).trans ?_
    exact own_and_peers_perm (fun j => ownedBy (2 ^ k) i (input j)) i servers hnd hi

theorem node_waits (k : Nat) (hk1 : 1 ≤ k) (hk8 : k ≤ 8) (servers : List Int)
    (hperm : servers.Perm (denseIds (2 ^ k))) (input : Int → List Record)
    (hlen : ∀ j ∈ servers, ∀ r ∈ input j, r.length = 100)
    (hne : ∀ j ∈ servers, input j ≠ []) (i : Int) (hi : i ∈ servers)
    (sent : Int → Sent) (tagged : List (Nat × Frame))
    (hvalid : ValidArrival
      ((servers.filter (fun j => decide (j ≠ i))).filterMap
        (fun j => (sent j).deliver (sendBucket (ownedBy (2 ^ k) i (input j))))) tagged)
    (hbad : ∃ j ∈ servers.filter (fun j => decide (j ≠ i)),
      (sent j).deliver (sendBucket (ownedBy (2 ^ k) i (input j)))
        ≠ some (sendBucket (ownedBy (2 ^ k) i (input j)))) :
    main i servers (input i).flatten (tagged.map Prod.snd) = Outcome.blocked := by
  have hnd := perm_dense_nodup servers _ hperm
  have hn := perm_dense_length servers _ hperm
  have h2 := two_le_two_pow k hk1
  have hframes := arrival_perm_streams _ tagged hvalid
  have hcount := (countP_streams
    (fun j => (sent j).deliver (sendBucket (ownedBy (2 ^ k) i (input j))))
    (fun j => some (sendBucket (ownedBy (2 ^ k) i (input j))))
    (servers.filter (fun j => decide (j ≠ i)))
    (by
      intro j hj t ht
      have hlenB : ∀ r ∈ ownedBy (2 ^ k) i (input j), r.length = 100 :=
        fun r hr => hlen j (List.mem_filter.1 hj).1 r ((mem_ownedBy _ _ _ _).1 hr).1
      have := countP_deliver_le _ hlenB (sent j) t ht
      exact ⟨this.1, fun h => this.2 (fun h1 => h (by rw [h1]))⟩)).2 hbad
  have hpeers := length_filter_ne servers hnd i hi
  have hnonempty : ∀ f ∈ tagged.map Prod.snd, f ≠ [] := by
    intro f hf hnil
    obtain ⟨l, hl, hfl⟩ := List.mem_flatten.1 (hframes.mem_iff.1 hf)
    obtain ⟨stream, _, rfl⟩ := List.mem_map.1 hl
    have := length_of_mem_framesOf stream f hfl
    rw [hnil] at this
    simp at this
  unfold main distributedPath
  rw [if_neg (by omega), if_neg (flatten_length_ne_zero _ (hlen i hi) (hne i hi)),
    readRecords_flatten _ (hlen i hi),
    distribute_dense k hk8 servers hperm _ (ne_nil_of_length_100 _ (hlen i hi))]
  simp only
  rw [assemble_blocked servers.length (tagged.map Prod.snd) _ 0
    (by rw [hframes.countP_eq]; omega) hnonempty]

theorem node_outcome (k : Nat) (hk1 : 1 ≤ k) (hk8 : k ≤ 8) (servers : List Int)
    (hperm : servers.Perm (denseIds (2 ^ k))) (input : Int → List Record)
    (hlen : ∀ j ∈ servers, ∀ r ∈ input j, r.length = 100)
    (hne : ∀ j ∈ servers, input j ≠ []) (i : Int) (hi : i ∈ servers)
    (progress : Int → Int → Sent) (tagged : List (Nat × Frame))
    (hvalid : ValidArrival (inbound i servers (fun j => (input j).flatten) progress) tagged) :
    (main i servers (input i).flatten (tagged.map Prod.snd) = Outcome.blocked ∨
      ∃ p : List Record,
        main i servers (input i).flatten (tagged.map Prod.snd) = Outcome.wrote p.flatten ∧
        p.Perm (ownedBy (2 ^ k) i (servers.map input).flatten) ∧ p.Pairwise keyLE) ∧
    ((∀ j ∈ servers, j ≠ i → progress j i = Sent.whole) →
      ∃ p : List Record,
        main i servers (input i).flatten (tagged.map Prod.snd) = Outcome.wrote p.flatten ∧
        p.Perm (ownedBy (2 ^ k) i (servers.map input).flatten) ∧ p.Pairwise keyLE) := by
  rw [inbound_dense k hk1 hk8 servers hperm input hlen hne i hi] at hvalid
  have hgood : (∀ j ∈ servers.filter (fun j => decide (j ≠ i)),
      (progress j i).deliver (sendBucket (ownedBy (2 ^ k) i (input j)))
        = some (sendBucket (ownedBy (2 ^ k) i (input j)))) →
      ∃ p : List Record,
        main i servers (input i).flatten (tagged.map Prod.snd) = Outcome.wrote p.flatten ∧
        p.Perm (ownedBy (2 ^ k) i (servers.map input).flatten) ∧ p.Pairwise keyLE := by
    intro hall
    rw [filterMap_eq_map _ (fun j => sendBucket (ownedBy (2 ^ k) i (input j))) _ hall] at hvalid
    have h := node_complete k hk1 hk8 servers hperm input hlen hne i hi tagged hvalid
    exact ⟨_, h.1, (sortSlice_perm keyLess _).trans h.2, sortSlice_keyLE _⟩
  constructor
  · by_cases hall : ∀ j ∈ servers.filter (fun j => decide (j ≠ i)),
        (progress j i).deliver (sendBucket (ownedBy (2 ^ k) i (input j)))
          = some (sendBucket (ownedBy (2 ^ k) i (input j)))
    · exact Or.inr (hgood hall)
    · left
      push_neg at hall
      exact node_waits k hk1 hk8 servers hperm input hlen hne i hi (fun j => progress j i)
        tagged hvalid hall
  · intro hwhole
    refine hgood ?_
    intro j hj
    have hj1 := List.mem_filter.1 hj
    rw [hwhole j hj1.1 (by simpa using hj1.2)]
    rfl

/-! ## The cluster as a whole -/

theorem main_empty_file (i : Int) (servers : List Int) (hlen : servers.length ≠ 1)
    (arrivals : List Frame) : main i servers [] arrivals = Outcome.wrote [] := by
  simp [main, hlen, distributedPath]

theorem outbound_not_self (j : Int) (servers : List Int) (file : List Byte)
    (progress : Int → Sent) (conn : Int × List Byte)
    (hconn : conn ∈ outbound j servers file progress) : conn.1 ≠ j := by
  unfold outbound at hconn
  split at hconn
  · simp at hconn
  · split at hconn
    · simp at hconn
    · split at hconn
      · simp at hconn
      · rename_i distribution _
        obtain ⟨c, hc, hmap⟩ := List.mem_filterMap.1 hconn
        cases hd : (progress c.1).deliver c.2 with
        | none => rw [hd] at hmap; simp at hmap
        | some t =>
          rw [hd] at hmap
          have : conn = (c.1, t) := by simpa using hmap.symm
          rw [this]
          exact ((mem_dial j distribution c servers).1 hc).2.1

theorem cluster_union (k : Nat) (hk8 : k ≤ 8) (servers : List Int)
    (hperm : servers.Perm (denseIds (2 ^ k))) (input : Int → List Record)
    (hlen : ∀ j ∈ servers, ∀ r ∈ input j, r.length = 100) (outs : Int → List Record)
    (hout : ∀ i ∈ servers, (outs i).Perm (ownedBy (2 ^ k) i (servers.map input).flatten)) :
    ((servers.map outs).flatten).Perm (servers.map input).flatten ∧
      (((denseIds (2 ^ k)).map outs).flatten).Perm (servers.map input).flatten ∧
      ((∀ i ∈ servers, (outs i).Pairwise keyLE) →
        (((denseIds (2 ^ k)).map outs).flatten).Pairwise keyLE) := by
  have hnd := perm_dense_nodup servers _ hperm
  have hall : ∀ r ∈ (servers.map input).flatten,
      ∃ ID ∈ servers, ownerID r (2 ^ k) = some ID := by
    intro r hr
    obtain ⟨l, hl, hrl⟩ := List.mem_flatten.1 hr
    obtain ⟨j, hj, rfl⟩ := List.mem_map.1 hl
    exact owner_mem_servers k hk8 servers hperm r
      (ne_nil_of_length_100 _ (hlen j hj) r hrl)
  have hunion : ((servers.map outs).flatten).Perm (servers.map input).flatten :=
    (flatten_map_perm_congr _ _ servers hout).trans
      (buckets_perm (2 ^ k) servers hnd _ hall)
  refine ⟨hunion, ((hperm.symm.map _).flatten).trans hunion, ?_⟩
  intro hsorted
  refine pairwise_in_id_order k hk8 _ ?_ (fun i hi => hsorted i (hperm.mem_iff.2 hi))
  intro i hi r hr
  exact ((mem_ownedBy _ _ _ _).1 ((hout i (hperm.mem_iff.2 hi)).subset hr)).2

/-- C1, as the code behaves: in a cluster of `2 ^ k` nodes (`1 ≤ k ≤ 8`)
with ids `0 .. 2 ^ k - 1` and 100-byte records, where either every shard is
empty or no shard is empty, and for every progress of the senders and every
order in which the frames they wrote arrive: a node either waits forever
for a sentinel or writes the concatenation of a key-sorted rearrangement of
exactly the records, over all shards, that it owns; it writes when every
peer's sender towards it runs to its end; and when all senders do, the
outputs together are a rearrangement of the whole input and, concatenated in
node-id order, are sorted by key. -/
theorem cluster_sorts_uniform_shards (k : Nat) (hk1 : 1 ≤ k) (hk8 : k ≤ 8)
    (servers : List Int) (hperm : servers.Perm (denseIds (2 ^ k)))
    (input : Int → List Record)
    (hlen : ∀ j ∈ servers, ∀ r ∈ input j, r.length = 100)
    (huniform : (∀ j ∈ servers, input j = []) ∨ (∀ j ∈ servers, input j ≠ []))
    (progress : Int → Int → Sent)
    (arrivals : Int → List (Nat × Frame))
    (hvalid : ∀ i ∈ servers,
      ValidArrival (inbound i servers (fun j => (input j).flatten) progress) (arrivals i)) :
    (∀ i ∈ servers,
      main i servers (input i).flatten ((arrivals i).map Prod.snd) = Outcome.blocked ∨
      ∃ p : List Record,
        main i servers (input i).flatten ((arrivals i).map Prod.snd)
          = Outcome.wrote p.flatten ∧
        p.Perm (ownedBy (2 ^ k) i (servers.map input).flatten) ∧ p.Pairwise keyLE) ∧
    (∀ i ∈ servers, (∀ j ∈ servers, j ≠ i → progress j i = Sent.whole) →
      ∃ p : List Record,
        main i servers (input i).flatten ((arrivals i).map Prod.snd)
          = Outcome.wrote p.flatten ∧
        p.Perm (ownedBy (2 ^ k) i (servers.map input).flatten) ∧ p.Pairwise keyLE) ∧
    ((∀ i ∈ servers, ∀ j ∈ servers, j ≠ i → progress j i = Sent.whole) →
      ∃ outs : Int → List Record,
        (∀ i ∈ servers,
          main i servers (input i).flatten ((arrivals i).map Prod.snd)
              = Outcome.wrote (outs i).flatten ∧
            (outs i).Perm (ownedBy (2 ^ k) i (servers.map input).flatten) ∧
            (outs i).Pairwise keyLE) ∧
        ((servers.map outs).flatten).Perm (servers.map input).flatten ∧
        (((denseIds (2 ^ k)).map outs).flatten).Perm (servers.map input).flatten ∧
        (((denseIds (2 ^ k)).map outs).flatten).Pairwise keyLE) := by
  have hn := perm_dense_length servers _ hperm
  have h2 := two_le_two_pow k hk1
  have hnode : ∀ i ∈ servers,
      (main i servers (input i).flatten ((arrivals i).map Prod.snd) = Outcome.blocked ∨
        ∃ p : List Record,
          main i servers (input i).flatten ((arrivals i).map Prod.snd)
            = Outcome.wrote p.flatten ∧
          p.Perm (ownedBy (2 ^ k) i (servers.map input).flatten) ∧ p.Pairwise keyLE) ∧
      ((∀ j ∈ servers, j ≠ i → progress j i = Sent.whole) →
        ∃ p : List Record,
          main i servers (input i).flatten ((arrivals i).map Prod.snd)
            = Outcome.wrote p.flatten ∧
          p.Perm (ownedBy (2 ^ k) i (servers.map input).flatten) ∧ p.Pairwise keyLE) := by
    intro i hi
    rcases huniform with hempty | hne
    · have hall : (servers.map input).flatten = [] := by
        rw [List.flatten_eq_nil_iff]
        intro l hl
        obtain ⟨j, hj, rfl⟩ := List.mem_map.1 hl
        exact hempty j hj
      have hrun : ∃ p : List Record,
          main i servers (input i).flatten ((arrivals i).map Prod.snd)
            = Outcome.wrote p.flatten ∧
          p.Perm (ownedBy (2 ^ k) i (servers.map input).flatten) ∧ p.Pairwise keyLE := by
        refine ⟨[], ?_, ?_, List.Pairwise.nil⟩
        · rw [hempty i hi]
          exact main_empty_file i servers (by omega) _
        · rw [hall]
          exact List.Perm.refl _
      exact ⟨Or.inr hrun, fun _ => hrun⟩
    · exact node_outcome k hk1 hk8 servers hperm input hlen hne i hi progress (arrivals i)
        (hvalid i hi)
  refine ⟨fun i hi => (hnode i hi).1, fun i hi => (hnode i hi).2, ?_⟩
  intro hwhole
  have hex : ∀ i, ∃ p : List Record, i ∈ servers →
      main i servers (input i).flatten ((arrivals i).map Prod.snd)
          = Outcome.wrote p.flatten ∧
        p.Perm (ownedBy (2 ^ k) i (servers.map input).flatten) ∧ p.Pairwise keyLE := by
    intro i
    by_cases hi : i ∈ servers
    · obtain ⟨p, hp⟩ := (hnode i hi).2 (hwhole i hi)
      exact ⟨p, fun _ => hp⟩
    · exact ⟨[], fun h => absurd h hi⟩
  choose outs houts using hex
  have hu := cluster_union k hk8 servers hperm input hlen outs (fun i hi => (houts i hi).2.1)
  exact ⟨outs, houts, hu.1, hu.2.1, hu.2.2 (fun i hi => (houts i hi).2.2)⟩

set_option maxRecDepth 100000 in
theorem balanced_inbound_zero :
    inbound 0 [0, 1] (fun j => (balancedInput j).flatten) allWhole
      = [sendBucket [sampleRecord 0x10]] := by
  decide

set_option maxRecDepth 100000 in
theorem balanced_inbound_one :
    inbound 1 [0, 1] (fun j => (balancedInput j).flatten) allWhole
      = [sendBucket [sampleRecord 0x90]] := by
  decide

theorem valid_single_stream (record : Record) (hrec : record.length = 100) :
    ValidArrival [sendBucket [record]] [(0, dataFrame record), (0, sentinelFrame)] := by
  refine ⟨by intro t ht; simp at ht; rcases ht with h | h <;> simp [h], ?_⟩
  intro c stream hc
  cases c with
  | zero =>
    have hs : stream = sendBucket [record] := by simpa using hc.symm
    subst hs
    refine ⟨[dataFrame record, sentinelFrame], ?_, ?_, ?_⟩
    · intro x hx
      rcases List.mem_cons.1 hx with h | h
      · rw [h]; simp [dataFrame, hrec]
      · have : x = sentinelFrame := by simpa using h
        rw [this]; simp [sentinelFrame]
    · simp [sendBucket, genEnd_sentinel]
    · have hsz : ∀ x ∈ [dataFrame record, sentinelFrame], x.length ≤ 101 := by
        intro x hx
        rcases List.mem_cons.1 hx with h | h
        · rw [h]; simp [dataFrame, hrec]
        · have : x = sentinelFrame := by simpa using h
          rw [this]; simp [sentinelFrame]
      rw [connReader_delivery _ hsz [] (by simp)]
      have hflat : ([] : List Byte) ++ [dataFrame record, sentinelFrame].flatten
          = sendBucket [record] := by
        simp [sendBucket, genEnd_sentinel]
      rw [hflat, framesOf_sendBucket [record] (by simpa using hrec)]
      rfl
  | succ c => simp at hc

theorem balanced_valid :
    ∀ i ∈ ([0, 1] : List Int),
      ValidArrival (inbound i [0, 1] (fun j => (balancedInput j).flatten) allWhole)
        (balancedArrivals i) := by
  intro i hi
  have hcases : i = 0 ∨ i = 1 := by simpa using hi
  rcases hcases with h | h
  · subst h
    rw [balanced_inbound_zero]
    exact valid_single_stream (sampleRecord 0x10) (by simp [sampleRecord])
  · subst h
    rw [balanced_inbound_one]
    exact valid_single_stream (sampleRecord 0x90) (by simp [sampleRecord])

set_option maxRecDepth 100000 in
theorem cluster_sorts_uniform_shards_witness :
    (∀ j ∈ ([0, 1] : List Int), balancedInput j ≠ []) ∧
      (∀ i ∈ ([0, 1] : List Int),
        ValidArrival (inbound i [0, 1] (fun j => (balancedInput j).flatten) allWhole)
          (balancedArrivals i)) ∧
      (∀ i ∈ ([0, 1] : List Int), ∀ j ∈ ([0, 1] : List Int),
        j ≠ i → allWhole j i = Sent.whole) ∧
      ∃ outs : Int → List Record,
        (∀ i ∈ ([0, 1] : List Int),
          main i [0, 1] (balancedInput i).flatten ((balancedArrivals i).map Prod.snd)
              = Outcome.wrote (outs i).flatten ∧
            (outs i).Perm (ownedBy (2 ^ 1) i (([0, 1] : List Int).map balancedInput).flatten) ∧
            (outs i).Pairwise keyLE) ∧
        ((([0, 1] : List Int).map outs).flatten).Perm
          (([0, 1] : List Int).map balancedInput).flatten ∧
        (((denseIds (2 ^ 1)).map outs).flatten).Perm
          (([0, 1] : List Int).map balancedInput).flatten ∧
        (((denseIds (2 ^ 1)).map outs).flatten).Pairwise keyLE :=
  ⟨by decide, balanced_valid, fun _ _ _ _ _ => rfl,
    (cluster_sorts_uniform_shards 1 (by decide) (by decide) [0, 1] (List.Perm.refl _)
      balancedInput (by decide) (Or.inr (by decide)) allWhole balancedArrivals
      balanced_valid).2.2 (fun _ _ _ _ _ => rfl)⟩

theorem scenario_inbound_zero (progress : Int → Int → Sent) :
    inbound 0 [0, 1] (fun j => (scenarioInput j).flatten) progress = [] := by
  unfold inbound
  rw [List.flatten_eq_nil_iff]
  intro l hl
  obtain ⟨j, hj, rfl⟩ := List.mem_map.1 hl
  have hcases : j = 0 ∨ j = 1 := by simpa using hj
  rcases hcases with h | h
  · subst h
    rw [List.map_eq_nil_iff, List.filter_eq_nil_iff]
    intro conn hconn
    have := outbound_not_self 0 _ _ _ conn hconn
    simpa using this
  · subst h
    simp [outbound, scenarioInput]

set_option maxRecDepth 100000 in
theorem early_exit_inbound_zero :
    inbound 0 [0, 1] (fun j => (balancedInput j).flatten) earlyExit
      = [sendBucket [sampleRecord 0x10]] := by
  decide

set_option maxRecDepth 100000 in
theorem early_exit_inbound_one :
    inbound 1 [0, 1] (fun j => (balancedInput j).flatten) earlyExit = [] := by
  decide

set_option maxRecDepth 100000 in
/-- C1, as stated, fails in two ways.  On the two-node scenario of the
specification node 1, whose shard is empty, writes an empty output whatever
arrives, so its output is not a rearrangement of the record it owns (the
one with first key byte 0x90), and nothing ever reaches node 0, whose
assembly loop waits for a sentinel that is never sent.  On an input with no
empty shard, node 0 reads the whole stream of node 1, writes its output and
returns before its own `dial` goroutine has opened a connection; nothing
reaches node 1, which owns a record of node 0 and waits forever. -/
theorem cluster_scenarios_fail :
    (ownedBy 2 1 (([0, 1] : List Int).map scenarioInput).flatten = [sampleRecord 0x90] ∧
      (∀ arrivals : List Frame,
        main 1 [0, 1] (scenarioInput 1).flatten arrivals = Outcome.wrote []) ∧
      (∀ arrivals : List Frame, ¬ ∃ p : List Record,
        p.Perm (ownedBy 2 1 (([0, 1] : List Int).map scenarioInput).flatten) ∧
          main 1 [0, 1] (scenarioInput 1).flatten arrivals = Outcome.wrote p.flatten) ∧
      (∀ progress : Int → Int → Sent,
        inbound 0 [0, 1] (fun j => (scenarioInput j).flatten) progress = []) ∧
      main 0 [0, 1] (scenarioInput 0).flatten [] = Outcome.blocked) ∧
    (ValidArrival (inbound 0 [0, 1] (fun j => (balancedInput j).flatten) earlyExit)
        (balancedArrivals 0) ∧
      main 0 [0, 1] (balancedInput 0).flatten ((balancedArrivals 0).map Prod.snd)
        = Outcome.wrote [sampleRecord 0x05, sampleRecord 0x10].flatten ∧
      outbound 0 [0, 1] (balancedInput 0).flatten (earlyExit 0) = [] ∧
      ownedBy 2 1 (([0, 1] : List Int).map balancedInput).flatten = [sampleRecord 0x90] ∧
      ∀ tagged : List (Nat × Frame),
        ValidArrival (inbound 1 [0, 1] (fun j => (balancedInput j).flatten) earlyExit) tagged →
          main 1 [0, 1] (balancedInput 1).flatten (tagged.map Prod.snd) = Outcome.blocked) := by
  have howned : ownedBy 2 1 (([0, 1] : List Int).map scenarioInput).flatten
      = [sampleRecord 0x90] := by decide
  have hmain : ∀ arrivals : List Frame,
      main 1 [0, 1] (scenarioInput 1).flatten arrivals = Outcome.wrote [] :=
    fun _ => rfl
  refine ⟨⟨howned, hmain, ?_, scenario_inbound_zero, by decide⟩, ?_, by decide, by decide,
    by decide, ?_⟩
  · rintro arrivals ⟨p, hp, hrun⟩
    rw [howned] at hp
    rw [List.perm_singleton.1 hp, hmain arrivals] at hrun
    have hbytes := congrArg (fun o => match o with
      | Outcome.wrote out => out.length
      | _ => 0) hrun
    simp [sampleRecord] at hbytes
  · rw [early_exit_inbound_zero]
    exact valid_single_stream (sampleRecord 0x10) (by simp [sampleRecord])
  · intro tagged hvalid
    rw [early_exit_inbound_one] at hvalid
    have hnil : tagged = [] := by
      cases tagged with
      | nil => rfl
      | cons t ts => exact absurd (hvalid.1 t (List.mem_cons_self _ _)) (Nat.not_lt_zero _)
    subst hnil
    decide

end Netsort
